import Mathlib

/-!
Verification of the data-source state engine of `polaris-list-table`
(`src/hooks/useDataSource.ts`): the QueryState data model, its mutation API,
the URL codec, the local resolver (filter / sort / paginate), the remote
request construction, the failure handler, and the request-cancellation
coordinator.

Modelling conventions (shallow embedding):
* JavaScript strings are modelled as byte lists (`JStr := List UInt8`), i.e.
  by their UTF-8 byte sequences.  This makes `encodeURIComponent` /
  `decodeURIComponent` (which operate per UTF-8 byte) exact, and string
  equality coincides with JS string equality.  Functions that are only
  exercised on ASCII data in this development (`toLowerCase`,
  `localeCompare`) are modelled at the byte level and noted where they
  deviate from full Unicode behaviour.
* JavaScript numbers are modelled as `Int`; the states and data exercised
  by the specification's claims use integer values only.
* Association-list order models JavaScript object insertion order
  (`Object.entries`, `URLSearchParams.forEach` iterate in insertion order).
-/

/-- Byte-sequence model of a JavaScript string (its UTF-8 bytes). -/
abbrev JStr : Type := List UInt8

/-- Literal helper: the bytes of an ASCII Lean string.  Used only to write
concrete examples; all example data in this file is ASCII. -/
def strb (s : String) : JStr :=
  s.data.map (fun c => UInt8.ofNat c.toNat)

/-- Bytes of the reserved filter key `queryValue`. -/
def qvKey : JStr := strb "queryValue"

/-- Dynamic value stored in an item field or in a filter array, as the local
resolver discriminates them: `undefined`, a number, a string, or a boolean.
Numbers are modelled as integers (see module conventions). -/
inductive JsVal : Type
  | undef : JsVal
  | num : Int → JsVal
  | str : JStr → JsVal
  | boolV : Bool → JsVal
deriving DecidableEq

/-- Saved view as the hook consumes it: a name, an optional id and a
`filterValues`-shaped mapping (`ViewDefinition` in the source). -/
structure ViewDef (α : Type) : Type where
  viewId : Option JStr
  name : JStr
  filters : List (JStr × α)
deriving DecidableEq

/-- Engine-owned query state mirroring the `useState` cells of
`useDataSource` that the mutation API touches: `page`, `limit`, `sort`
(string array of at most one `"field direction"` entry, modelled as an
optional single entry), `filterValues`, `viewSelected`.  The filter-value
type is a parameter because different parts of the code discriminate the
dynamic values differently. -/
structure EngineState (α : Type) : Type where
  page : Int
  limit : Int
  sort : Option JStr
  filterValues : List (JStr × α)
  viewSelected : Option JStr
deriving DecidableEq

/-- Association-list lookup, modelling JavaScript property read `obj[key]`
(`none` models `undefined`). -/
def objGet {α : Type} (k : JStr) : List (JStr × α) → Option α
  | [] => none
  | (k', v) :: rest => if k' = k then some v else objGet k rest

/-- Association-list update modelling JavaScript property assignment /
object-spread override: an existing key keeps its position and is
overwritten, a new key is appended. -/
def objSet {α : Type} (k : JStr) (v : α) : List (JStr × α) → List (JStr × α)
  | [] => [(k, v)]
  | (k', v') :: rest => if k' = k then (k, v) :: rest else (k', v') :: objSet k v rest

/-- Spread-merge of two objects (`\x7b...a, ...b\x7d`): every entry of `b`
assigned over `a` in order. -/
def objMerge {α : Type} (a b : List (JStr × α)) : List (JStr × α) :=
  b.foldl (fun acc kv => objSet kv.1 kv.2 acc) a

/-- Source `handleSetFilterValues`: replaces `filterValues` wholesale and
forces `page` back to 1. -/
def handleSetFilterValues {α : Type} (st : EngineState α)
    (newFilters : List (JStr × α)) : EngineState α :=
  { st with filterValues := newFilters, page := 1 }

/-- Source `handleSetPage`. -/
def handleSetPage {α : Type} (st : EngineState α) (newPage : Int) : EngineState α :=
  { st with page := newPage }

/-- Source `setQueryValue`: spread of the current filters with `queryValue`
replaced, routed through `handleSetFilterValues`. -/
def setQueryValue {α : Type} (st : EngineState α) (value : α) : EngineState α :=
  handleSetFilterValues st (objSet qvKey value st.filterValues)

/-- Source `setFilter`: spread of the current filters with one key replaced,
routed through `handleSetFilterValues`. -/
def setFilter {α : Type} (st : EngineState α) (k : JStr) (value : α) : EngineState α :=
  handleSetFilterValues st (objSet k value st.filterValues)

/-- Source `setFilters`: spread-merge of the supplied record over the
current filters, routed through `handleSetFilterValues`. -/
def setFilters {α : Type} (st : EngineState α) (fs : List (JStr × α)) : EngineState α :=
  handleSetFilterValues st (objMerge st.filterValues fs)

/-- Source `clearFilters`: replaces the filters with a record holding only
`queryValue` bound to the empty string.  `emptyStr` is the embedding of the
JS empty-string literal into the filter-value type. -/
def clearFilters {α : Type} (emptyStr : α) (st : EngineState α) : EngineState α :=
  handleSetFilterValues st [(qvKey, emptyStr)]

/-- Source `setSelectedView`: looks the view up by index in `defaultViews`;
when it exists, records its name as `viewSelected` and applies its stored
filters through `handleSetFilterValues` (which resets `page`); when the
index is out of range (`defaultViews[index]` is `undefined`) nothing
happens. -/
def setSelectedView {α : Type} (views : List (ViewDef α)) (st : EngineState α)
    (index : Nat) : EngineState α :=
  match views.get? index with
  | some v =>
      { handleSetFilterValues st v.filters with viewSelected := some v.name }
  | none => st

/-- Source `setViewSelected`: stores the given name-or-id (or `null`) as
`viewSelected` and touches nothing else. -/
def setViewSelected {α : Type} (st : EngineState α) (v : Option JStr) : EngineState α :=
  { st with viewSelected := v }

/-- Example state used by concrete counterexamples: page 5, some filters. -/
def samplePage5State : EngineState JsVal :=
  { page := 5
    limit := 10
    sort := none
    filterValues := [(qvKey, JsVal.str (strb "x"))]
    viewSelected := none }

/-- C3 (claim as stated is refuted by this counterexample): with no views
configured, calling `setSelectedView` at index 0 from page 5 leaves the page
at 5, not 1 — the filter-mutation API does not universally reset the page. -/
theorem setSelectedView_out_of_range_keeps_page :
    (setSelectedView ([] : List (ViewDef JsVal)) samplePage5State 0).page = 5 ∧
      ¬ (setSelectedView ([] : List (ViewDef JsVal)) samplePage5State 0).page = 1 := by
  constructor
  · rfl
  · decide

/-- C3 (amended): `setFilters`, `setQueryValue`, `setFilter` and
`clearFilters` always leave `page = 1`, for every prior state and even when
the supplied values equal the current ones; `setSelectedView` does so
whenever the index names an existing view, and leaves the state entirely
unchanged (page included) when the index is out of range. -/
theorem filter_mutations_reset_page {α : Type} (st : EngineState α)
    (fs : List (JStr × α)) (k : JStr) (v : α) (e : α)
    (views : List (ViewDef α)) (i : Nat) (vw : ViewDef α)
    (hvw : views.get? i = some vw) :
    (setFilters st fs).page = 1 ∧
      (setQueryValue st v).page = 1 ∧
      (setFilter st k v).page = 1 ∧
      (clearFilters e st).page = 1 ∧
      (setSelectedView views st i).page = 1 ∧
      (∀ views' : List (ViewDef α), views'.get? i = none →
        setSelectedView views' st i = st) := by
  refine ⟨rfl, rfl, rfl, rfl, ?_, ?_⟩
  · unfold setSelectedView
    rw [hvw]
    rfl
  · intro views' h
    unfold setSelectedView
    rw [h]


/-- C3 witness: the amended theorem applied at a concrete state (page 5) and
a concrete one-view configuration. -/
theorem filter_mutations_reset_page_witness :
    (setFilters samplePage5State samplePage5State.filterValues).page = 1 ∧
      (setQueryValue samplePage5State (JsVal.str (strb "x"))).page = 1 ∧
      (setFilter samplePage5State (strb "status") (JsVal.str (strb "active"))).page = 1 ∧
      (clearFilters (JsVal.str (strb "")) samplePage5State).page = 1 ∧
      (setSelectedView [⟨none, strb "All", []⟩] samplePage5State 0).page = 1 ∧
      (∀ views' : List (ViewDef JsVal), views'.get? 0 = none →
        setSelectedView views' samplePage5State 0 = samplePage5State) :=
  filter_mutations_reset_page samplePage5State samplePage5State.filterValues
    (strb "status") (JsVal.str (strb "active")) (JsVal.str (strb ""))
    [⟨none, strb "All", []⟩] 0 ⟨none, strb "All", []⟩ rfl

/-- C10: `setViewSelected` changes only the `viewSelected` field — page,
limit, sort and `filterValues` are untouched and the stored view filters are
not applied — whereas the index-based `setSelectedView` on an existing view
applies that view's filters and resets the page. -/
theorem setViewSelected_frame {α : Type} (st : EngineState α) (v : Option JStr)
    (views : List (ViewDef α)) (i : Nat) (vw : ViewDef α)
    (hvw : views.get? i = some vw) :
    (setViewSelected st v).page = st.page ∧
      (setViewSelected st v).limit = st.limit ∧
      (setViewSelected st v).sort = st.sort ∧
      (setViewSelected st v).filterValues = st.filterValues ∧
      (setViewSelected st v).viewSelected = v ∧
      (setSelectedView views st i).filterValues = vw.filters ∧
      (setSelectedView views st i).page = 1 := by
  refine ⟨rfl, rfl, rfl, rfl, rfl, ?_, ?_⟩ <;>
    · unfold setSelectedView
      rw [hvw]
      rfl

/-- C10 witness: the frame theorem applied at a concrete state, a concrete
view name, and a concrete one-view configuration. -/
theorem setViewSelected_frame_witness :
    (setViewSelected samplePage5State (some (strb "Mine"))).page = samplePage5State.page ∧
      (setViewSelected samplePage5State (some (strb "Mine"))).limit = samplePage5State.limit ∧
      (setViewSelected samplePage5State (some (strb "Mine"))).sort = samplePage5State.sort ∧
      (setViewSelected samplePage5State (some (strb "Mine"))).filterValues =
        samplePage5State.filterValues ∧
      (setViewSelected samplePage5State (some (strb "Mine"))).viewSelected =
        some (strb "Mine") ∧
      (setSelectedView [⟨none, strb "Mine", [(strb "status", JsVal.str (strb "active"))]⟩]
          samplePage5State 0).filterValues = [(strb "status", JsVal.str (strb "active"))] ∧
      (setSelectedView [⟨none, strb "Mine", [(strb "status", JsVal.str (strb "active"))]⟩]
          samplePage5State 0).page = 1 :=
  setViewSelected_frame samplePage5State (some (strb "Mine"))
    [⟨none, strb "Mine", [(strb "status", JsVal.str (strb "active"))]⟩] 0
    ⟨none, strb "Mine", [(strb "status", JsVal.str (strb "active"))]⟩ rfl

/-! ## Local resolver (`handleLocalData`) -/

/-- ASCII lower-casing of one byte, the byte-level model of
`String.prototype.toLowerCase` (Unicode case mapping is outside this
development; all matched data here is ASCII). -/
def lowerB (b : UInt8) : UInt8 :=
  if 65 ≤ b && b ≤ 90 then b + 32 else b

/-- Lower-case a whole string (model of `.toLowerCase()`). -/
def lowerS (s : JStr) : JStr :=
  s.map lowerB

/-- Does `hay` start with `needle`? (helper for substring search). -/
def startsWithB : JStr → JStr → Bool
  | _, [] => true
  | [], _ :: _ => false
  | h :: hs, n :: ns => h == n && startsWithB hs ns

/-- Substring containment, the model of `String.prototype.includes`. -/
def containsSub (hay needle : JStr) : Bool :=
  match hay with
  | [] => needle.isEmpty
  | _ :: rest => startsWithB hay needle || containsSub rest needle

/-- Decimal digits of a natural number. -/
def natBytes (n : Nat) : JStr :=
  (Nat.toDigits 10 n).map (fun c => UInt8.ofNat c.toNat)

/-- Decimal rendering of an integer, the model of `Number.prototype.toString`
for the integer-valued numbers this development uses. -/
def intToBytes (n : Int) : JStr :=
  if n < 0 then strb "-" ++ natBytes n.natAbs else natBytes n.toNat

/-- Model of `value?.toString()`: `none` when the value is `undefined`
(optional chaining short-circuits), otherwise the JS string rendering. -/
def toStrJs : JsVal → Option JStr
  | .undef => none
  | .num n => some (intToBytes n)
  | .str s => some s
  | .boolV b => some (if b then strb "true" else strb "false")

/-- An in-memory item: a JS object, modelled as its (insertion-ordered)
property list. -/
abbrev Item : Type := List (JStr × JsVal)

/-- Property read `item[key]` yielding `undefined` for an absent key. -/
def itemGet (it : Item) (k : JStr) : JsVal :=
  (objGet k it).getD JsVal.undef

/-- Query matching of one item, from the source line
`item[queryKey]?.toString().toLowerCase().includes(queryValue.toLowerCase())`:
items whose field is absent are excluded, otherwise case-insensitive
substring match. -/
def matchQuery (queryKey : JStr) (q : JStr) (it : Item) : Bool :=
  match toStrJs (itemGet it queryKey) with
  | none => false
  | some t => containsSub (lowerS t) (lowerS q)

/-- Filter value as `handleLocalData` (and `handleRemoteData`) discriminate
the dynamic `filterValues` entries: a string, an array, or anything else
(numbers, booleans, `undefined`) which imposes no constraint. -/
inductive LVal : Type
  | lstr : JStr → LVal
  | larr : List JsVal → LVal
  | lnum : Int → LVal
  | lbool : Bool → LVal
  | lundef : LVal
deriving DecidableEq

/-- Query-filter stage of `handleLocalData` (`if (queryValue) \x7b ... \x7d`):
filters only when `queryValue` is a non-empty string.  A truthy non-string
`queryValue` would make the JS code throw on `.toLowerCase()`; the engine's
own API only ever stores a string there, so that corner is outside the
modelled state space. -/
def queryStep (queryKey : JStr) (qv : Option LVal) (items : List Item) : List Item :=
  match qv with
  | some (.lstr s) => if s.isEmpty then items else items.filter (matchQuery queryKey s)
  | _ => items

/-- Per-key filter predicate of `handleLocalData`: array membership for a
non-empty array value, case-insensitive substring match for a non-empty
string value, no constraint otherwise. -/
def filterPass (k : JStr) (v : LVal) (it : Item) : Bool :=
  match v with
  | .larr l => if l.isEmpty then true else l.contains (itemGet it k)
  | .lstr s =>
      if s.isEmpty then true
      else
        match toStrJs (itemGet it k) with
        | none => false
        | some t => containsSub (lowerS t) (lowerS s)
  | _ => true

/-- One iteration of the `Object.entries(otherFilters).forEach` loop of
`handleLocalData`: narrow the accumulated items by one filter entry. -/
def filterStepOne (acc : List Item) (kv : JStr × LVal) : List Item :=
  match kv.2 with
  | .larr l => if l.isEmpty then acc else acc.filter (fun it => l.contains (itemGet it kv.1))
  | .lstr s =>
      if s.isEmpty then acc
      else
        acc.filter (fun it =>
          match toStrJs (itemGet it kv.1) with
          | none => false
          | some t => containsSub (lowerS t) (lowerS s))
  | _ => acc

/-- Sequential per-key filter stage of `handleLocalData`
(`Object.entries(otherFilters).forEach(...)` narrowing `filteredItems`). -/
def applyOtherFilters (entries : List (JStr × LVal)) (items : List Item) : List Item :=
  entries.foldl filterStepOne items

/-- JS `String.prototype.split` on a single-byte separator. -/
def splitB (sep : UInt8) : JStr → List JStr
  | [] => [[]]
  | b :: rest =>
    if b = sep then [] :: splitB sep rest
    else
      match splitB sep rest with
      | [] => [[b]]
      | h :: t => (b :: h) :: t

/-- Sort field of a `"field direction"` sort entry (`sort[0].split(' ')[0]`). -/
def sortKeyOf (s0 : JStr) : JStr :=
  ((splitB 32 s0).get? 0).getD []

/-- Sort direction component of a sort entry (`sort[0].split(' ')[1]`,
`undefined` when missing). -/
def sortOrderOf (s0 : JStr) : Option JStr :=
  (splitB 32 s0).get? 1

/-- Three-way byte-lexicographic comparison, the model of
`String.prototype.localeCompare` (locale collation tables are outside this
development; the data compared here is ASCII, where locale order and
byte order agree on the claims exercised). -/
def lexCmp : JStr → JStr → Int
  | [], [] => 0
  | [], _ :: _ => -1
  | _ :: _, [] => 1
  | a :: as, b :: bs => if a < b then -1 else if b < a then 1 else lexCmp as bs

/-- JS `Number(string)` conversion restricted to the integer model: optional
sign and decimal digits (after trimming) convert, the empty string converts
to 0, anything else (fractional, exponent, hex, junk) is `NaN`, modelled as
`none`. -/
def strToNum (s : JStr) : Option Int :=
  let stripped := (s.dropWhile (fun b => b == 32 || b == 9 || b == 10 || b == 13)).reverse
      |>.dropWhile (fun b => b == 32 || b == 9 || b == 10 || b == 13) |>.reverse
  match stripped with
  | [] => some 0
  | b :: rest =>
    let digits := if b = 45 then rest else stripped
    let neg := b = 45
    if digits.isEmpty then none
    else if digits.all (fun d => 48 ≤ d && d ≤ 57) then
      let n : Nat := digits.foldl (fun acc d => acc * 10 + (d.toNat - 48)) 0
      some (if neg then -(n : Int) else (n : Int))
    else none

/-- JS `ToNumber` of a dynamic value (integer model): numbers are
themselves, booleans coerce to 0/1, strings via `strToNum`, `undefined` is
`NaN` (`none`). -/
def toNumber : JsVal → Option Int
  | .num n => some n
  | .boolV b => some (if b then 1 else 0)
  | .str s => strToNum s
  | .undef => none

/-- Timestamp of `new Date(v).getTime()` (`none` models `NaN` / an invalid
date).  A numeric value is an epoch-milliseconds timestamp and `undefined`
gives an invalid date; booleans coerce to 0/1.  String date parsing is
platform- and locale-dependent and is modelled as an invalid date — the
claims exercised here use numeric or absent `createdAt` values. -/
def toTime : JsVal → Option Int
  | .num n => some n
  | .boolV b => some (if b then 1 else 0)
  | .str _ => none
  | .undef => none

/-- Comparator of the sort stage of `handleLocalData`, byte-for-byte from
the source: `createdGt` branch compares parsed timestamps (`NaN` arithmetic
makes the comparator return `NaN`, which ECMAScript `SortCompare` treats as
+0, modelled as 0); otherwise `undefined` sorts last ascending / first
descending, two strings compare with `localeCompare`, and any other pair
subtracts after `ToNumber` coercion (`NaN` again modelled as 0). -/
def cmpJs (key : JStr) (isAsc : Bool) (a b : Item) : Int :=
  if key = strb "createdAt" then
    match toTime (itemGet a key), toTime (itemGet b key) with
    | some ta, some tb => if isAsc then ta - tb else tb - ta
    | _, _ => 0
  else
    match itemGet a key, itemGet b key with
    | .undef, .undef => 0
    | .undef, _ => if isAsc then 1 else -1
    | _, .undef => if isAsc then -1 else 1
    | .str x, .str y => if isAsc then lexCmp x y else lexCmp y x
    | va, vb =>
        match toNumber va, toNumber vb with
        | some x, some y => if isAsc then x - y else y - x
        | _, _ => 0

/-- Stable insertion of one element: it lands before the first element that
compares strictly greater, i.e. after every earlier element it ties with. -/
def insertJs {α : Type} (cmp : α → α → Int) (x : α) : List α → List α
  | [] => [x]
  | y :: ys => if 0 < cmp y x then x :: y :: ys else y :: insertJs cmp x ys

/-- Model of ES2019 `Array.prototype.sort`: a stable comparator sort
(elements processed left to right, each inserted after its ties). -/
def sortJs {α : Type} (cmp : α → α → Int) (l : List α) : List α :=
  l.foldl (fun acc x => insertJs cmp x acc) []

/-- Index clamping of `Array.prototype.slice`: negative indices wrap from
the end, out-of-range indices clamp to `[0, length]`. -/
def sliceIdx (len : Nat) (i : Int) : Nat :=
  (if i < 0 then max ((len : Int) + i) 0 else min i len).toNat

/-- JS `Array.prototype.slice(s, e)` including its negative-index wrapping. -/
def jsSlice {α : Type} (l : List α) (s e : Int) : List α :=
  (l.drop (sliceIdx l.length s)).take (sliceIdx l.length e - sliceIdx l.length s)

/-- Filter/sort pipeline of `handleLocalData` before pagination (the value
of `filteredItems` right before the `slice`). -/
def localPipeline (queryKey : JStr) (st : EngineState LVal) (data : List Item) :
    List Item :=
  let step1 := queryStep queryKey (objGet qvKey st.filterValues) data
  let step2 := applyOtherFilters (st.filterValues.filter (fun kv => kv.1 != qvKey)) step1
  match st.sort with
  | some s0 =>
      if s0.isEmpty then step2
      else sortJs (cmpJs (sortKeyOf s0) (sortOrderOf s0 == some (strb "asc"))) step2
  | none => step2

/-- Resolver result `\x7b items, total \x7d`. -/
structure ResolveResult : Type where
  items : List Item
  total : Nat
deriving DecidableEq

/-- Source `handleLocalData`: destructure `queryValue` from the filters,
apply the query filter, the per-key filters, the optional sort, then slice
`[(page-1)*limit, (page-1)*limit + limit)`; `total` is the pre-pagination
length.  Without local data it returns the empty result. -/
def handleLocalData (queryKey : JStr) (localData : Option (List Item))
    (st : EngineState LVal) : ResolveResult :=
  match localData with
  | none => ⟨[], 0⟩
  | some data =>
      let filtered := localPipeline queryKey st data
      let startIndex := (st.page - 1) * st.limit
      ⟨jsSlice filtered startIndex (startIndex + st.limit), filtered.length⟩

/-! ## Claims C4 and C5: pagination boundary and filtering semantics -/

theorem jsSlice_eq {α : Type} (l : List α) (s k : Int) (hs : 0 ≤ s) (hk : 0 ≤ k) :
    jsSlice l s (s + k) = (l.drop s.toNat).take k.toNat := by
  obtain ⟨S, rfl⟩ : ∃ S : Nat, s = (S : Int) := ⟨s.toNat, (Int.toNat_of_nonneg hs).symm⟩
  obtain ⟨K, rfl⟩ : ∃ K : Nat, k = (K : Int) := ⟨k.toNat, (Int.toNat_of_nonneg hk).symm⟩
  unfold jsSlice sliceIdx
  have h1 : ¬ ((S : Int) < 0) := by omega
  have h2 : ¬ ((S : Int) + (K : Int) < 0) := by omega
  rw [if_neg h1, if_neg h2]
  have e1 : (min (S : Int) ((l.length : Int))).toNat = min S l.length := by omega
  have e2 : (min ((S : Int) + (K : Int)) ((l.length : Int))).toNat = min (S + K) l.length := by
    omega
  rw [e1, e2, Int.toNat_natCast, Int.toNat_natCast]
  by_cases hS : S ≤ l.length
  · rw [min_eq_left hS]
    apply List.take_eq_take.mpr
    rw [List.length_drop]
    omega
  · push_neg at hS
    rw [min_eq_right (le_of_lt hS), List.drop_length, List.drop_eq_nil_of_le (le_of_lt hS)]
    simp

/-- C4: the local resolver's items are exactly the filtered/sorted list
sliced at `[(page-1)*limit, (page-1)*limit + limit)`, `total` is the
pre-pagination length, and a page whose start index is at or past the
filtered length yields an empty item list (no error) with `total`
unaffected. -/
theorem local_pagination_boundary (queryKey : JStr) (data : List Item)
    (st : EngineState LVal) (hp : 1 ≤ st.page) (hl : 0 ≤ st.limit) :
    (handleLocalData queryKey (some data) st).items
        = ((localPipeline queryKey st data).drop ((st.page - 1) * st.limit).toNat).take
            st.limit.toNat ∧
      (handleLocalData queryKey (some data) st).total
          = (localPipeline queryKey st data).length ∧
      ((localPipeline queryKey st data).length ≤ ((st.page - 1) * st.limit).toNat →
        (handleLocalData queryKey (some data) st).items = []) := by
  have hs : 0 ≤ (st.page - 1) * st.limit := mul_nonneg (by omega) hl
  have h1 : (handleLocalData queryKey (some data) st).items
      = ((localPipeline queryKey st data).drop ((st.page - 1) * st.limit).toNat).take
          st.limit.toNat := by
    show jsSlice (localPipeline queryKey st data) ((st.page - 1) * st.limit)
        ((st.page - 1) * st.limit + st.limit) = _
    exact jsSlice_eq _ _ _ hs hl
  refine ⟨h1, rfl, fun hle => ?_⟩
  rw [h1, List.drop_eq_nil_of_le hle, List.take_nil]

/-- Ten one-field items with values 1..10, for the boundary scenario. -/
def ex10 : List Item :=
  (List.range 10).map (fun i => [(strb "v", JsVal.num ((i : Int) + 1))])

/-- Local-mode state with no filters and no sort at the given page, limit 4. -/
def exSt (p : Int) : EngineState LVal :=
  ⟨p, 4, none, [], none⟩

/-- C4 witness: the theorem applied at the spec's concrete scenario —
10 items with limit 4: page 3 yields items 9 and 10 with total 10, page 10
yields an empty list with total 10. -/
theorem local_pagination_boundary_witness :
    ((handleLocalData (strb "v") (some ex10) (exSt 3)).items
        = ((localPipeline (strb "v") (exSt 3) ex10).drop
            (((exSt 3).page - 1) * (exSt 3).limit).toNat).take (exSt 3).limit.toNat) ∧
      (handleLocalData (strb "v") (some ex10) (exSt 3)).items
          = [[(strb "v", JsVal.num 9)], [(strb "v", JsVal.num 10)]] ∧
      (handleLocalData (strb "v") (some ex10) (exSt 3)).total = 10 ∧
      (handleLocalData (strb "v") (some ex10) (exSt 10)).items = [] ∧
      (handleLocalData (strb "v") (some ex10) (exSt 10)).total = 10 := by
  refine ⟨(local_pagination_boundary (strb "v") ex10 (exSt 3) (by decide) (by decide)).1,
    by decide, by decide, ?_, by decide⟩
  exact (local_pagination_boundary (strb "v") ex10 (exSt 10) (by decide) (by decide)).2.2
    (by decide)

theorem filterStepOne_eq (items : List Item) (kv : JStr × LVal) :
    filterStepOne items kv = items.filter (fun it => filterPass kv.1 kv.2 it) := by
  rcases kv with ⟨k, v⟩
  cases v with
  | lstr s =>
      by_cases h : s.isEmpty <;> simp [filterStepOne, filterPass, h, List.filter_true]
  | larr l =>
      by_cases h : l.isEmpty <;> simp [filterStepOne, filterPass, h, List.filter_true]
  | lnum n => simp [filterStepOne, filterPass, List.filter_true]
  | lbool b => simp [filterStepOne, filterPass, List.filter_true]
  | lundef => simp [filterStepOne, filterPass, List.filter_true]

theorem applyOtherFilters_eq (entries : List (JStr × LVal)) (items : List Item) :
    applyOtherFilters entries items
      = items.filter (fun it => entries.all (fun kv => filterPass kv.1 kv.2 it)) := by
  induction entries generalizing items with
  | nil => simp [applyOtherFilters, List.filter_true]
  | cons kv es ih =>
      have hstep : applyOtherFilters (kv :: es) items
          = applyOtherFilters es (filterStepOne items kv) := rfl
      rw [hstep, ih, filterStepOne_eq, List.filter_filter]
      apply List.filter_congr
      intro it _
      simp [List.all_cons, Bool.and_comm]

/-- Combined keep-predicate of the local resolver's filtering stages: the
query condition (case-insensitive substring match of a non-empty
`queryValue` against the `queryKey` field, absent fields excluded) and every
per-key filter condition. -/
def keepItem (queryKey : JStr) (fv : List (JStr × LVal)) (it : Item) : Bool :=
  (match objGet qvKey fv with
   | some (.lstr s) => if s.isEmpty then true else matchQuery queryKey s it
   | _ => true)
  && (fv.filter (fun kv => kv.1 != qvKey)).all (fun kv => filterPass kv.1 kv.2 it)

/-- Items of the spec's query+filter scenario. -/
def bobData : List Item :=
  [[(strb "name", JsVal.str (strb "Bob")), (strb "status", JsVal.str (strb "active"))],
   [(strb "name", JsVal.str (strb "Bobby")), (strb "status", JsVal.str (strb "inactive"))],
   [(strb "name", JsVal.str (strb "Ann")), (strb "status", JsVal.str (strb "active"))]]

/-- State of the spec's query+filter scenario: `queryValue='bob'`,
filter `status='active'`. -/
def bobSt : EngineState LVal :=
  ⟨1, 50, none, [(qvKey, LVal.lstr (strb "bob")), (strb "status", LVal.lstr (strb "active"))], none⟩

/-- Items of the spec scenario kept by the code: Bob, and Bobby — whose
`status` value `"inactive"` contains the substring `"active"`, so the
string-valued `status='active'` filter keeps it too. -/
def bobbyKept : List Item :=
  [[(strb "name", JsVal.str (strb "Bob")), (strb "status", JsVal.str (strb "active"))],
   [(strb "name", JsVal.str (strb "Bobby")), (strb "status", JsVal.str (strb "inactive"))]]

/-- C5 (the claim's concrete scenario is refuted): on the spec's data with
`queryValue='bob'` over `name` and filter `status='active'`, the resolver
returns Bob AND Bobby with total 2 — `"inactive"` contains the substring
`"active"`, so Bobby passes the string filter — not exactly Bob with
total 1 as claimed. -/
theorem query_filter_scenario_counterexample :
    handleLocalData (strb "name") (some bobData) bobSt = ⟨bobbyKept, 2⟩ ∧
      ¬ handleLocalData (strb "name") (some bobData) bobSt
          = ⟨[[(strb "name", JsVal.str (strb "Bob")),
               (strb "status", JsVal.str (strb "active"))]], 1⟩ := by
  constructor <;> decide

/-- C5 (amended): the local resolver's filtering stages keep exactly the
items that satisfy the query condition (case-insensitive substring match of
a non-empty `queryValue` against the stringified `queryKey` field, absent
fields excluded) and every per-key filter condition (array membership for
non-empty arrays, case-insensitive substring match for non-empty strings,
no constraint otherwise); on the spec's scenario this keeps Bob and Bobby
(total 2), since `'bobby'` contains `'bob'` and `'inactive'` contains
`'active'`. -/
theorem local_filter_semantics (queryKey : JStr) (fv : List (JStr × LVal))
    (data : List Item) :
    applyOtherFilters (fv.filter (fun kv => kv.1 != qvKey))
        (queryStep queryKey (objGet qvKey fv) data)
      = data.filter (keepItem queryKey fv) ∧
    handleLocalData (strb "name") (some bobData) bobSt = ⟨bobbyKept, 2⟩ := by
  constructor
  · rw [applyOtherFilters_eq]
    rcases h : objGet qvKey fv with _ | v
    · simp only [queryStep]
      apply List.filter_congr
      intro it _
      simp [keepItem, h]
    · cases v with
      | lstr s =>
          by_cases hs : s.isEmpty
          · simp only [queryStep, hs, if_true]
            apply List.filter_congr
            intro it _
            simp [keepItem, h, hs]
          · simp only [queryStep, if_neg hs, List.filter_filter]
            apply List.filter_congr
            intro it _
            simp [keepItem, h, hs, Bool.and_comm]
      | larr l =>
          simp only [queryStep]
          apply List.filter_congr
          intro it _
          simp [keepItem, h]
      | lnum n =>
          simp only [queryStep]
          apply List.filter_congr
          intro it _
          simp [keepItem, h]
      | lbool b =>
          simp only [queryStep]
          apply List.filter_congr
          intro it _
          simp [keepItem, h]
      | lundef =>
          simp only [queryStep]
          apply List.filter_congr
          intro it _
          simp [keepItem, h]
  · decide

/-! ## Claim C6: sort semantics — generic facts about the stable sort model -/

theorem mem_insertJs {α : Type} (cmp : α → α → Int) (x z : α) (l : List α) :
    z ∈ insertJs cmp x l ↔ z = x ∨ z ∈ l := by
  induction l with
  | nil => simp [insertJs]
  | cons y ys ih =>
      by_cases hy : 0 < cmp y x
      · simp [insertJs, hy]
      · simp only [insertJs, if_neg hy, List.mem_cons, ih]
        tauto

theorem perm_insertJs {α : Type} (cmp : α → α → Int) (x : α) (l : List α) :
    (insertJs cmp x l).Perm (x :: l) := by
  induction l with
  | nil => exact List.Perm.refl _
  | cons y ys ih =>
      by_cases hy : 0 < cmp y x
      · rw [insertJs, if_pos hy]
      · rw [insertJs, if_neg hy]
        exact (ih.cons y).trans (List.Perm.swap x y ys)

theorem foldl_insertJs_perm {α : Type} (cmp : α → α → Int) :
    ∀ (l acc : List α), (List.foldl (fun a x => insertJs cmp x a) acc l).Perm (acc ++ l) := by
  intro l
  induction l with
  | nil => intro acc; simp
  | cons x xs ih =>
      intro acc
      refine (ih (insertJs cmp x acc)).trans ?_
      refine ((perm_insertJs cmp x acc).append_right xs).trans ?_
      exact List.perm_middle.symm

theorem sortJs_perm {α : Type} (cmp : α → α → Int) (l : List α) :
    (sortJs cmp l).Perm l := by
  have h := foldl_insertJs_perm cmp l []
  simpa [sortJs] using h

theorem insertJs_split {α : Type} (cmp : α → α → Int) (x : α) (l : List α) :
    ∃ l₁ l₂, l = l₁ ++ l₂ ∧ insertJs cmp x l = l₁ ++ x :: l₂ ∧
      (∀ y ∈ l₁, cmp y x ≤ 0) ∧ (∀ h t, l₂ = h :: t → 0 < cmp h x) := by
  induction l with
  | nil =>
      exact ⟨[], [], rfl, rfl, by simp, fun h t ht => by cases ht⟩
  | cons y ys ih =>
      by_cases hy : 0 < cmp y x
      · refine ⟨[], y :: ys, rfl, by rw [insertJs, if_pos hy]; rfl, by simp, ?_⟩
        intro h t ht
        cases ht
        exact hy
      · obtain ⟨l₁, l₂, he, hi, h1, h2⟩ := ih
        refine ⟨y :: l₁, l₂, by rw [he]; rfl, ?_, ?_, h2⟩
        · rw [insertJs, if_neg hy, hi]
          rfl
        · intro z hz
          rcases List.mem_cons.mp hz with rfl | hz
          · exact Int.not_lt.mp hy
          · exact h1 z hz

theorem insertJs_undefLast {α : Type} (cmp : α → α → Int) (U : α → Bool) (x : α)
    (hux : U x = false → ∀ y, U y = true → 0 < cmp y x)
    (hxu : U x = true → ∀ y, cmp y x ≤ 0) :
    ∀ l : List α, l.Pairwise (fun a b => U a = true → U b = true) →
      (insertJs cmp x l).Pairwise (fun a b => U a = true → U b = true) := by
  intro l
  induction l with
  | nil => intro _; exact List.pairwise_singleton _ _
  | cons y ys ih =>
      intro hl
      obtain ⟨hhead, htail⟩ := List.pairwise_cons.mp hl
      by_cases hy : 0 < cmp y x
      · rw [insertJs, if_pos hy]
        refine List.pairwise_cons.mpr ⟨?_, hl⟩
        intro b _ hUx
        exact absurd (hxu hUx y) (by omega)
      · rw [insertJs, if_neg hy]
        refine List.pairwise_cons.mpr ⟨?_, ih htail⟩
        intro b hb hUy
        rcases (mem_insertJs cmp x b ys).mp hb with rfl | hb
        · cases hUb : U b
          · exact absurd (hux hUb y hUy) hy
          · rfl
        · exact hhead b hb hUy

theorem sortJs_undefLast {α : Type} (cmp : α → α → Int) (U : α → Bool)
    (h1 : ∀ u y, U u = true → U y = false → 0 < cmp u y)
    (h2 : ∀ y u, U u = true → cmp y u ≤ 0) (l : List α) :
    (sortJs cmp l).Pairwise (fun a b => U a = true → U b = true) := by
  suffices h : ∀ (m acc : List α), acc.Pairwise (fun a b => U a = true → U b = true) →
      (List.foldl (fun a x => insertJs cmp x a) acc m).Pairwise
        (fun a b => U a = true → U b = true) from h l [] (List.Pairwise.nil)
  intro m
  induction m with
  | nil => intro acc h; exact h
  | cons x xs ih =>
      intro acc hacc
      exact ih _ (insertJs_undefLast cmp U x
        (fun hx y hy => h1 y x hy hx) (fun hx y => h2 y x hx) acc hacc)

theorem insertJs_undefFirst {α : Type} (cmp : α → α → Int) (U : α → Bool) (x : α)
    (hdu : U x = true → ∀ y, U y = false → 0 < cmp y x)
    (hud : U x = false → ∀ y, U y = true → cmp y x ≤ 0)
    (huu : U x = true → ∀ y, U y = true → cmp y x ≤ 0) :
    ∀ l : List α, l.Pairwise (fun a b => U b = true → U a = true) →
      (insertJs cmp x l).Pairwise (fun a b => U b = true → U a = true) := by
  intro l
  induction l with
  | nil => intro _; exact List.pairwise_singleton _ _
  | cons y ys ih =>
      intro hl
      obtain ⟨hhead, htail⟩ := List.pairwise_cons.mp hl
      by_cases hy : 0 < cmp y x
      · rw [insertJs, if_pos hy]
        refine List.pairwise_cons.mpr ⟨?_, hl⟩
        intro b hb hUb
        cases hUx : U x
        · -- x defined: show an undefined b cannot be in y :: ys here
          have hUy : U y = true := by
            rcases List.mem_cons.mp hb with rfl | hb
            · exact hUb
            · exact hhead b hb hUb
          exact absurd (hud hUx y hUy) (by omega)
        · rfl
      · rw [insertJs, if_neg hy]
        refine List.pairwise_cons.mpr ⟨?_, ih htail⟩
        intro b hb hUb
        rcases (mem_insertJs cmp x b ys).mp hb with rfl | hb
        · cases hUy : U y
          · exact absurd (hdu hUb y hUy) hy
          · rfl
        · exact hhead b hb hUb

theorem sortJs_undefFirst {α : Type} (cmp : α → α → Int) (U : α → Bool)
    (h1 : ∀ y u, U u = true → U y = false → 0 < cmp y u)
    (h2 : ∀ u y, U u = true → U y = false → cmp u y ≤ 0)
    (h3 : ∀ u u', U u = true → U u' = true → cmp u u' ≤ 0) (l : List α) :
    (sortJs cmp l).Pairwise (fun a b => U b = true → U a = true) := by
  suffices h : ∀ (m acc : List α), acc.Pairwise (fun a b => U b = true → U a = true) →
      (List.foldl (fun a x => insertJs cmp x a) acc m).Pairwise
        (fun a b => U b = true → U a = true) from h l [] (List.Pairwise.nil)
  intro m
  induction m with
  | nil => intro acc h; exact h
  | cons x xs ih =>
      intro acc hacc
      exact ih _ (insertJs_undefFirst cmp U x
        (fun hx y hy => h1 y x hx hy) (fun hx y hy => h2 y x hy hx)
        (fun hx y hy => h3 y x hy hx) acc hacc)

/-- Tie relation of a comparator: both directions compare to 0 (the
comparator declares the two elements equal). -/
def tieB {α : Type} (cmp : α → α → Int) (t z : α) : Bool :=
  cmp t z == 0 && cmp z t == 0

theorem insertJs_sortedC {α : Type} (cmp : α → α → Int) (P : α → Prop)
    (htr : ∀ a b c, P a → P b → P c → cmp a b ≤ 0 → cmp b c ≤ 0 → cmp a c ≤ 0)
    (hneg : ∀ a b, P a → P b → 0 < cmp a b → cmp b a ≤ 0) (x : α) (hx : P x) :
    ∀ l : List α, (∀ y ∈ l, P y) → l.Pairwise (fun a b => cmp a b ≤ 0) →
      (insertJs cmp x l).Pairwise (fun a b => cmp a b ≤ 0) := by
  intro l
  induction l with
  | nil => intro _ _; exact List.pairwise_singleton _ _
  | cons y ys ih =>
      intro hP hl
      obtain ⟨hhead, htail⟩ := List.pairwise_cons.mp hl
      have hPy : P y := hP y (by simp)
      have hPys : ∀ z ∈ ys, P z := fun z hz => hP z (by simp [hz])
      by_cases hy : 0 < cmp y x
      · rw [insertJs, if_pos hy]
        refine List.pairwise_cons.mpr ⟨?_, hl⟩
        intro b hb
        have hxy : cmp x y ≤ 0 := hneg y x hPy hx hy
        rcases List.mem_cons.mp hb with rfl | hb
        · exact hxy
        · exact htr x y b hx hPy (hPys b hb) hxy (hhead b hb)
      · rw [insertJs, if_neg hy]
        refine List.pairwise_cons.mpr ⟨?_, ih hPys htail⟩
        intro b hb
        rcases (mem_insertJs cmp x b ys).mp hb with rfl | hb
        · exact Int.not_lt.mp hy
        · exact hhead b hb

theorem foldl_insertJs_sorted {α : Type} (cmp : α → α → Int) (P : α → Prop)
    (htr : ∀ a b c, P a → P b → P c → cmp a b ≤ 0 → cmp b c ≤ 0 → cmp a c ≤ 0)
    (hneg : ∀ a b, P a → P b → 0 < cmp a b → cmp b a ≤ 0) :
    ∀ (m acc : List α), (∀ y ∈ m, P y) → (∀ y ∈ acc, P y) →
      acc.Pairwise (fun a b => cmp a b ≤ 0) →
      ((List.foldl (fun a x => insertJs cmp x a) acc m).Pairwise
          (fun a b => cmp a b ≤ 0) ∧
        (∀ y ∈ List.foldl (fun a x => insertJs cmp x a) acc m, P y)) := by
  intro m
  induction m with
  | nil => intro acc _ hP hs; exact ⟨hs, hP⟩
  | cons x xs ih =>
      intro acc hm hP hs
      have hPx : P x := hm x (by simp)
      have hm' : ∀ y ∈ xs, P y := fun y hy => hm y (by simp [hy])
      have hPacc' : ∀ y ∈ insertJs cmp x acc, P y := by
        intro y hy
        rcases (mem_insertJs cmp x y acc).mp hy with rfl | hy
        · exact hPx
        · exact hP y hy
      exact ih (insertJs cmp x acc) hm' hPacc'
        (insertJs_sortedC cmp P htr hneg x hPx acc hP hs)

theorem sortJs_sortedC {α : Type} (cmp : α → α → Int) (P : α → Prop)
    (htr : ∀ a b c, P a → P b → P c → cmp a b ≤ 0 → cmp b c ≤ 0 → cmp a c ≤ 0)
    (hneg : ∀ a b, P a → P b → 0 < cmp a b → cmp b a ≤ 0)
    (l : List α) (hl : ∀ y ∈ l, P y) :
    (sortJs cmp l).Pairwise (fun a b => cmp a b ≤ 0) :=
  (foldl_insertJs_sorted cmp P htr hneg l [] hl (by simp) List.Pairwise.nil).1

theorem insertJs_filter_tie {α : Type} (cmp : α → α → Int) (P : α → Prop)
    (htr : ∀ a b c, P a → P b → P c → cmp a b ≤ 0 → cmp b c ≤ 0 → cmp a c ≤ 0)
    (t x : α) (hPt : P t) (hPx : P x) (l : List α) (hPl : ∀ y ∈ l, P y)
    (hs : l.Pairwise (fun a b => cmp a b ≤ 0)) :
    (insertJs cmp x l).filter (tieB cmp t)
      = if tieB cmp t x then l.filter (tieB cmp t) ++ [x] else l.filter (tieB cmp t) := by
  obtain ⟨l₁, l₂, he, hi, hle, hhead⟩ := insertJs_split cmp x l
  subst he
  rw [hi, List.filter_append, List.filter_cons, List.filter_append]
  by_cases ht : tieB cmp t x
  · rw [if_pos ht, if_pos ht]
    have hl₂ : l₂.filter (tieB cmp t) = [] := by
      apply List.filter_eq_nil_iff.mpr
      intro z hz htz
      obtain ⟨htx1, htx2⟩ : cmp t x = 0 ∧ cmp x t = 0 := by
        have h := ht
        unfold tieB at h
        exact ⟨by simpa using (Bool.and_elim_left h), by simpa using (Bool.and_elim_right h)⟩
      obtain ⟨htz1, htz2⟩ : cmp t z = 0 ∧ cmp z t = 0 := by
        unfold tieB at htz
        exact ⟨by simpa using (Bool.and_elim_left htz), by simpa using (Bool.and_elim_right htz)⟩
      have hPz : P z := hPl z (List.mem_append.mpr (Or.inr hz))
      have hzx : cmp z x ≤ 0 :=
        htr z t x hPz hPt hPx (le_of_eq htz2) (le_of_eq htx1)
      cases l₂ with
      | nil => cases hz
      | cons h2 t2 =>
          have hh : 0 < cmp h2 x := hhead h2 t2 rfl
          have hPh2 : P h2 := hPl h2 (List.mem_append.mpr (Or.inr (by simp)))
          rcases List.mem_cons.mp hz with rfl | hz2
          · omega
          · have hsl₂ : (h2 :: t2).Pairwise (fun a b => cmp a b ≤ 0) :=
              (List.pairwise_append.mp hs).2.1
            have hh2z : cmp h2 z ≤ 0 :=
              (List.pairwise_cons.mp hsl₂).1 z hz2
            have : cmp h2 x ≤ 0 := htr h2 z x hPh2 hPz hPx hh2z hzx
            omega
    rw [hl₂]
    simp
  · rw [if_neg ht, if_neg ht]

theorem foldl_insertJs_stable {α : Type} (cmp : α → α → Int) (P : α → Prop)
    (htr : ∀ a b c, P a → P b → P c → cmp a b ≤ 0 → cmp b c ≤ 0 → cmp a c ≤ 0)
    (hneg : ∀ a b, P a → P b → 0 < cmp a b → cmp b a ≤ 0)
    (t : α) (hPt : P t) :
    ∀ (m acc : List α), (∀ y ∈ m, P y) → (∀ y ∈ acc, P y) →
      acc.Pairwise (fun a b => cmp a b ≤ 0) →
      (List.foldl (fun a x => insertJs cmp x a) acc m).filter (tieB cmp t)
        = acc.filter (tieB cmp t) ++ m.filter (tieB cmp t) := by
  intro m
  induction m with
  | nil => intro acc _ _ _; simp
  | cons x xs ih =>
      intro acc hm hP hs
      have hPx : P x := hm x (by simp)
      have hm' : ∀ y ∈ xs, P y := fun y hy => hm y (by simp [hy])
      have hPacc' : ∀ y ∈ insertJs cmp x acc, P y := by
        intro y hy
        rcases (mem_insertJs cmp x y acc).mp hy with rfl | hy
        · exact hPx
        · exact hP y hy
      have hs' := insertJs_sortedC cmp P htr hneg x hPx acc hP hs
      have hrec := ih (insertJs cmp x acc) hm' hPacc' hs'
      rw [List.foldl_cons, hrec,
        insertJs_filter_tie cmp P htr t x hPt hPx acc hP hs, List.filter_cons]
      by_cases htx : tieB cmp t x
      · rw [if_pos htx, if_pos htx]
        simp
      · rw [if_neg htx, if_neg htx]

theorem sortJs_stable {α : Type} (cmp : α → α → Int) (P : α → Prop)
    (htr : ∀ a b c, P a → P b → P c → cmp a b ≤ 0 → cmp b c ≤ 0 → cmp a c ≤ 0)
    (hneg : ∀ a b, P a → P b → 0 < cmp a b → cmp b a ≤ 0)
    (t : α) (hPt : P t) (l : List α) (hl : ∀ y ∈ l, P y) :
    (sortJs cmp l).filter (tieB cmp t) = l.filter (tieB cmp t) := by
  have h := foldl_insertJs_stable cmp P htr hneg t hPt l [] hl (by simp) List.Pairwise.nil
  simpa [sortJs] using h

/-! ### Ordering facts about the byte-lexicographic comparison -/

theorem u8_eq_of_not_lt {a b : UInt8} (h1 : ¬ a < b) (h2 : ¬ b < a) : a = b := by
  have hba : b ≤ a := UInt8.not_lt.mp h1
  have hab : a ≤ b := UInt8.not_lt.mp h2
  exact UInt8.eq_of_toBitVec_eq
    (BitVec.le_antisymm (UInt8.le_def.mp hab) (UInt8.le_def.mp hba))

theorem lexCmp_swap (a : JStr) : ∀ b : JStr, lexCmp b a = -lexCmp a b := by
  induction a with
  | nil => intro b; cases b <;> simp [lexCmp]
  | cons x xs ih =>
      intro b
      cases b with
      | nil => simp [lexCmp]
      | cons y ys =>
          by_cases hxy : x < y
          · have hyx : ¬ y < x := UInt8.lt_asymm hxy
            simp [lexCmp, hxy, hyx]
          · by_cases hyx : y < x
            · simp [lexCmp, hxy, hyx]
            · have : x = y := u8_eq_of_not_lt hxy hyx
              subst this
              simp [lexCmp, hxy, ih]

theorem lexCmp_trans (a : JStr) : ∀ b c : JStr,
    lexCmp a b ≤ 0 → lexCmp b c ≤ 0 → lexCmp a c ≤ 0 := by
  induction a with
  | nil =>
      intro b c _ _
      cases c <;> simp [lexCmp]
  | cons x xs ih =>
      intro b c h1 h2
      cases b with
      | nil => simp [lexCmp] at h1
      | cons y ys =>
          cases c with
          | nil => simp [lexCmp] at h2
          | cons z zs =>
              by_cases hxy : x < y
              · -- x strictly below y, so x is below z as well
                by_cases hyz : y < z
                · have hxz : x < z := UInt8.lt_trans hxy hyz
                  simp [lexCmp, hxz]
                · by_cases hzy : z < y
                  · rw [lexCmp, if_neg hyz, if_pos hzy] at h2
                    omega
                  · have : y = z := u8_eq_of_not_lt hyz hzy
                    subst this
                    simp [lexCmp, hxy]
              · by_cases hyx : y < x
                · rw [lexCmp, if_neg hxy, if_pos hyx] at h1
                  omega
                · have : x = y := u8_eq_of_not_lt hxy hyx
                  subst this
                  rw [lexCmp, if_neg hxy, if_neg hyx] at h1
                  by_cases hyz : x < z
                  · simp [lexCmp, hyz]
                  · by_cases hzy : z < x
                    · rw [lexCmp, if_neg hyz, if_pos hzy] at h2
                      omega
                    · have : x = z := u8_eq_of_not_lt hyz hzy
                      subst this
                      rw [lexCmp, if_neg hyz, if_neg hzy] at h2 ⊢
                      exact ih ys zs h1 h2

/-! ### Properties of the local sort comparator -/

/-- Is the sort field `undefined` on this item? -/
def undefAt (key : JStr) (it : Item) : Bool :=
  itemGet it key == JsVal.undef

/-- Type-consistency: the sort field is a number or absent on this item. -/
def numOrUndefB (key : JStr) (it : Item) : Bool :=
  match itemGet it key with
  | .undef => true
  | .num _ => true
  | _ => false

/-- Type-consistency: the sort field is a string or absent on this item. -/
def strOrUndefB (key : JStr) (it : Item) : Bool :=
  match itemGet it key with
  | .undef => true
  | .str _ => true
  | _ => false

theorem cmpJs_trans_num (key : JStr) (isAsc : Bool) (hk : ¬ key = strb "createdAt") :
    ∀ a b c : Item, numOrUndefB key a = true → numOrUndefB key b = true →
      numOrUndefB key c = true →
      cmpJs key isAsc a b ≤ 0 → cmpJs key isAsc b c ≤ 0 → cmpJs key isAsc a c ≤ 0 := by
  intro a b c ha hb hc h1 h2
  unfold cmpJs at h1 h2 ⊢
  rw [if_neg hk] at h1 h2 ⊢
  unfold numOrUndefB at ha hb hc
  cases hva : itemGet a key <;> rw [hva] at ha <;>
    cases hvb : itemGet b key <;> rw [hvb] at hb <;>
    cases hvc : itemGet c key <;> rw [hvc] at hc <;>
    simp only [Bool.false_eq_true] at ha hb hc <;>
    cases isAsc <;> simp [toNumber, hva, hvb, hvc] at h1 h2 ⊢ <;> omega

theorem cmpJs_neg_num (key : JStr) (isAsc : Bool) (hk : ¬ key = strb "createdAt") :
    ∀ a b : Item, numOrUndefB key a = true → numOrUndefB key b = true →
      0 < cmpJs key isAsc a b → cmpJs key isAsc b a ≤ 0 := by
  intro a b ha hb h
  unfold cmpJs at h ⊢
  rw [if_neg hk] at h ⊢
  unfold numOrUndefB at ha hb
  cases hva : itemGet a key <;> rw [hva] at ha <;>
    cases hvb : itemGet b key <;> rw [hvb] at hb <;>
    simp only [Bool.false_eq_true] at ha hb <;>
    cases isAsc <;> simp [toNumber, hva, hvb] at h ⊢ <;> omega

theorem cmpJs_trans_str (key : JStr) (isAsc : Bool) (hk : ¬ key = strb "createdAt") :
    ∀ a b c : Item, strOrUndefB key a = true → strOrUndefB key b = true →
      strOrUndefB key c = true →
      cmpJs key isAsc a b ≤ 0 → cmpJs key isAsc b c ≤ 0 → cmpJs key isAsc a c ≤ 0 := by
  intro a b c ha hb hc h1 h2
  unfold cmpJs at h1 h2 ⊢
  rw [if_neg hk] at h1 h2 ⊢
  unfold strOrUndefB at ha hb hc
  cases hva : itemGet a key <;> rw [hva] at ha <;>
    cases hvb : itemGet b key <;> rw [hvb] at hb <;>
    cases hvc : itemGet c key <;> rw [hvc] at hc <;>
    simp only [Bool.false_eq_true] at ha hb hc <;>
    cases isAsc <;> simp [hva, hvb, hvc] at h1 h2 ⊢ <;>
    first
      | omega
      | exact lexCmp_trans _ _ _ h1 h2
      | exact lexCmp_trans _ _ _ h2 h1

theorem cmpJs_neg_str (key : JStr) (isAsc : Bool) (hk : ¬ key = strb "createdAt") :
    ∀ a b : Item, strOrUndefB key a = true → strOrUndefB key b = true →
      0 < cmpJs key isAsc a b → cmpJs key isAsc b a ≤ 0 := by
  intro a b ha hb h
  unfold cmpJs at h ⊢
  rw [if_neg hk] at h ⊢
  unfold strOrUndefB at ha hb
  cases hva : itemGet a key <;> rw [hva] at ha <;>
    cases hvb : itemGet b key <;> rw [hvb] at hb <;>
    simp only [Bool.false_eq_true] at ha hb <;>
    cases isAsc <;> simp [hva, hvb] at h ⊢ <;>
    first
      | omega
      | (rw [lexCmp_swap] ; omega)

theorem cmpJs_undef_gt_asc (key : JStr) (hk : ¬ key = strb "createdAt") :
    ∀ u y : Item, undefAt key u = true → undefAt key y = false → 0 < cmpJs key true u y := by
  intro u y hu hy
  unfold undefAt at hu hy
  have hu' : itemGet u key = JsVal.undef := by
    cases h : itemGet u key <;> rw [h] at hu <;> simp_all
  unfold cmpJs
  rw [if_neg hk, hu']
  cases h : itemGet y key <;> rw [h] at hy <;> simp_all

theorem cmpJs_le_undef_asc (key : JStr) (hk : ¬ key = strb "createdAt") :
    ∀ y u : Item, undefAt key u = true → cmpJs key true y u ≤ 0 := by
  intro y u hu
  unfold undefAt at hu
  have hu' : itemGet u key = JsVal.undef := by
    cases h : itemGet u key <;> rw [h] at hu <;> simp_all
  unfold cmpJs
  rw [if_neg hk, hu']
  cases h : itemGet y key <;> simp

theorem cmpJs_def_gt_undef_desc (key : JStr) (hk : ¬ key = strb "createdAt") :
    ∀ y u : Item, undefAt key u = true → undefAt key y = false → 0 < cmpJs key false y u := by
  intro y u hu hy
  unfold undefAt at hu hy
  have hu' : itemGet u key = JsVal.undef := by
    cases h : itemGet u key <;> rw [h] at hu <;> simp_all
  unfold cmpJs
  rw [if_neg hk, hu']
  cases h : itemGet y key <;> rw [h] at hy <;> simp_all

theorem cmpJs_undef_le_desc (key : JStr) (hk : ¬ key = strb "createdAt") :
    ∀ u y : Item, undefAt key u = true → cmpJs key false u y ≤ 0 := by
  intro u y hu
  unfold undefAt at hu
  have hu' : itemGet u key = JsVal.undef := by
    cases h : itemGet u key <;> rw [h] at hu <;> simp_all
  unfold cmpJs
  rw [if_neg hk, hu']
  cases h : itemGet y key <;> simp

/-- Item with no `createdAt` field (the field is `undefined`). -/
def cdUndef : Item := [(strb "x", JsVal.num 1)]

/-- Item with a numeric `createdAt` timestamp. -/
def cdTs : Item := [(strb "createdAt", JsVal.num 1000)]

/-- C6 (claim as stated is refuted by this counterexample): sorting
ascending by `createdAt`, an item whose `createdAt` is `undefined` is NOT
placed at the end: `new Date(undefined).getTime()` is `NaN`, the comparator
returns `NaN` (treated as 0 by `SortCompare`), so the stable sort leaves the
undefined-dated item in front of a dated one. -/
theorem createdAt_undef_not_last :
    sortJs (cmpJs (strb "createdAt") true) [cdUndef, cdTs] = [cdUndef, cdTs] ∧
      itemGet cdUndef (strb "createdAt") = JsVal.undef ∧
      ¬ sortJs (cmpJs (strb "createdAt") true) [cdUndef, cdTs] = [cdTs, cdUndef] := by
  exact ⟨by decide, by decide, by decide⟩

/-- C6 (amended): for a sort field other than `createdAt` whose values
across the items are type-consistent (all numeric-or-absent, or all
string-or-absent), the local sort is a permutation ordered by the
comparator, places items with an `undefined` field value at the end when
ascending and at the start when descending, and is stable: every
comparator-tie class keeps its original relative order.  (For `createdAt`,
an `undefined` value parses to `NaN` and ties with everything, so it keeps
its original position instead — see the counterexample.) -/
theorem local_sort_semantics (key : JStr) (isAsc : Bool) (l : List Item)
    (hk : ¬ key = strb "createdAt")
    (hcons : (∀ it ∈ l, numOrUndefB key it = true) ∨
      (∀ it ∈ l, strOrUndefB key it = true)) :
    (sortJs (cmpJs key isAsc) l).Perm l ∧
      (sortJs (cmpJs key isAsc) l).Pairwise (fun a b => cmpJs key isAsc a b ≤ 0) ∧
      (sortJs (cmpJs key true) l).Pairwise
        (fun a b => undefAt key a = true → undefAt key b = true) ∧
      (sortJs (cmpJs key false) l).Pairwise
        (fun a b => undefAt key b = true → undefAt key a = true) ∧
      (∀ t ∈ l, (sortJs (cmpJs key isAsc) l).filter (tieB (cmpJs key isAsc) t)
          = l.filter (tieB (cmpJs key isAsc) t)) := by
  refine ⟨sortJs_perm _ _, ?_, ?_, ?_, ?_⟩
  · rcases hcons with hc | hc
    · exact sortJs_sortedC _ (fun it => numOrUndefB key it = true)
        (cmpJs_trans_num key isAsc hk) (cmpJs_neg_num key isAsc hk) l hc
    · exact sortJs_sortedC _ (fun it => strOrUndefB key it = true)
        (cmpJs_trans_str key isAsc hk) (cmpJs_neg_str key isAsc hk) l hc
  · exact sortJs_undefLast _ (undefAt key) (cmpJs_undef_gt_asc key hk)
      (cmpJs_le_undef_asc key hk) l
  · exact sortJs_undefFirst _ (undefAt key) (cmpJs_def_gt_undef_desc key hk)
      (fun u y hu _ => cmpJs_undef_le_desc key hk u y hu)
      (fun u u' hu _ => cmpJs_undef_le_desc key hk u u' hu) l
  · intro t ht
    rcases hcons with hc | hc
    · exact sortJs_stable _ (fun it => numOrUndefB key it = true)
        (cmpJs_trans_num key isAsc hk) (cmpJs_neg_num key isAsc hk) t (hc t ht) l hc
    · exact sortJs_stable _ (fun it => strOrUndefB key it = true)
        (cmpJs_trans_str key isAsc hk) (cmpJs_neg_str key isAsc hk) t (hc t ht) l hc

/-- The spec's stable-sort scenario items. -/
def exABC : List Item :=
  [[(strb "k", JsVal.num 1), (strb "i", JsVal.str (strb "a"))],
   [(strb "k", JsVal.num 1), (strb "i", JsVal.str (strb "b"))],
   [(strb "k", JsVal.num 2), (strb "i", JsVal.str (strb "c"))]]

/-- C6 witness: the amended theorem applied at the spec's stable-sort
scenario, plus the concrete evaluation: sorting ascending by `k` keeps the
order a, b, c (ties preserved). -/
theorem local_sort_semantics_witness :
    ((sortJs (cmpJs (strb "k") true) exABC).Perm exABC ∧
      (sortJs (cmpJs (strb "k") true) exABC).Pairwise
        (fun a b => cmpJs (strb "k") true a b ≤ 0) ∧
      (sortJs (cmpJs (strb "k") true) exABC).Pairwise
        (fun a b => undefAt (strb "k") a = true → undefAt (strb "k") b = true) ∧
      (sortJs (cmpJs (strb "k") false) exABC).Pairwise
        (fun a b => undefAt (strb "k") b = true → undefAt (strb "k") a = true) ∧
      (∀ t ∈ exABC, (sortJs (cmpJs (strb "k") true) exABC).filter
            (tieB (cmpJs (strb "k") true) t)
          = exABC.filter (tieB (cmpJs (strb "k") true) t))) ∧
    sortJs (cmpJs (strb "k") true) exABC = exABC := by
  constructor
  · exact local_sort_semantics (strb "k") true exABC (by decide) (Or.inl (by decide))
  · decide

/-! ## Claims C7 and C8: remote request construction and failure handling -/

/-- JavaScript error object: its `name` and `message`. -/
structure JsError : Type where
  name : JStr
  message : JStr
deriving DecidableEq

/-- The source's cancellation sniff (`error?.name === 'AbortError' ||
error?.message === 'aborted'`). -/
def isCancellation (e : JsError) : Bool :=
  e.name == strb "AbortError" || e.message == strb "aborted"

/-- Result-bearing fields of the engine around a remote resolution: the
`items`, `total`, `loading`, `firstLoad` and `error` `useState` cells. -/
structure RemoteEngine : Type where
  items : List Item
  total : Int
  loading : Bool
  firstLoad : Bool
  error : Option JsError
deriving DecidableEq

/-- The tail of `fetchData`: a non-null resolver result is committed
(`setItems`, `setTotal`, `setLoading(false)`, `setFirstLoad(false)`); a null
result (cancellation) commits nothing. -/
def applyFetchResult (st : RemoteEngine) (result : Option (List Item × Int)) :
    RemoteEngine :=
  match result with
  | some r => { st with items := r.1, total := r.2, loading := false, firstLoad := false }
  | none => st

/-- The catch block of `handleRemoteData` composed with `fetchData`'s commit:
a cancellation-flavored error resolves to null (no update at all); any other
error is stored via `setError` and resolves `\x7b items: [], total: 0 \x7d`,
which `fetchData` then commits. -/
def handleRemoteFailure (st : RemoteEngine) (e : JsError) : RemoteEngine :=
  if isCancellation e then applyFetchResult st none
  else applyFetchResult { st with error := some e } (some ([], 0))

/-- C8: a remote failure that is not an AbortError and whose message is not
'aborted' sets the engine's error to that error, clears loading, and
replaces items/total with the empty result — stale items from a previous
resolution are never left in place; a cancellation-flavored error changes
nothing. -/
theorem hard_failure_resets (st : RemoteEngine) (e : JsError)
    (h1 : ¬ e.name = strb "AbortError") (h2 : ¬ e.message = strb "aborted") :
    (handleRemoteFailure st e).error = some e ∧
      (handleRemoteFailure st e).loading = false ∧
      (handleRemoteFailure st e).items = [] ∧
      (handleRemoteFailure st e).total = 0 ∧
      (∀ e' : JsError, isCancellation e' = true → handleRemoteFailure st e' = st) := by
  have hc : isCancellation e = false := by
    simp [isCancellation, h1, h2]
  refine ⟨?_, ?_, ?_, ?_, ?_⟩
  · simp [handleRemoteFailure, hc, applyFetchResult]
  · simp [handleRemoteFailure, hc, applyFetchResult]
  · simp [handleRemoteFailure, hc, applyFetchResult]
  · simp [handleRemoteFailure, hc, applyFetchResult]
  · intro e' he'
    simp [handleRemoteFailure, he', applyFetchResult]

/-- C8 witness: the theorem applied to an engine holding stale items and a
concrete TypeError — the stale items are replaced by the empty result. -/
theorem hard_failure_resets_witness :
    (handleRemoteFailure
        ⟨[[(strb "id", JsVal.num 7)]], 1, true, false, none⟩
        ⟨strb "TypeError", strb "boom"⟩).error = some ⟨strb "TypeError", strb "boom"⟩ ∧
      (handleRemoteFailure ⟨[[(strb "id", JsVal.num 7)]], 1, true, false, none⟩
          ⟨strb "TypeError", strb "boom"⟩).loading = false ∧
      (handleRemoteFailure ⟨[[(strb "id", JsVal.num 7)]], 1, true, false, none⟩
          ⟨strb "TypeError", strb "boom"⟩).items = [] ∧
      (handleRemoteFailure ⟨[[(strb "id", JsVal.num 7)]], 1, true, false, none⟩
          ⟨strb "TypeError", strb "boom"⟩).total = 0 ∧
      (∀ e' : JsError, isCancellation e' = true →
        handleRemoteFailure ⟨[[(strb "id", JsVal.num 7)]], 1, true, false, none⟩ e'
          = ⟨[[(strb "id", JsVal.num 7)]], 1, true, false, none⟩) :=
  hard_failure_resets ⟨[[(strb "id", JsVal.num 7)]], 1, true, false, none⟩
    ⟨strb "TypeError", strb "boom"⟩ (by decide) (by decide)

/-! ### Remote URL construction (claim C7) -/

/-- JS whitespace test for the bytes relevant here (space and the ASCII
control whitespace); model of the character class trimmed by
`String.prototype.trim`. -/
def isWsB (b : UInt8) : Bool :=
  b == 32 || (9 ≤ b && b ≤ 13)

/-- Model of `String.prototype.trim` (ASCII whitespace; Unicode spaces are
outside this development). -/
def trimB (s : JStr) : JStr :=
  ((s.dropWhile isWsB).reverse.dropWhile isWsB).reverse

/-- JS `Array.prototype.join(',')` over dynamic values: elements render via
their string conversion, `undefined` renders as the empty string. -/
def joinCommaVals (l : List JsVal) : JStr :=
  match l with
  | [] => []
  | [v] => (toStrJs v).getD []
  | v :: rest => (toStrJs v).getD [] ++ 44 :: joinCommaVals rest

/-- Filter serialization of `handleRemoteData`: the free-text query first
(`queryKey|trimmed-value`, when `queryValue` is a non-empty string), then
one entry per other filter — `key|array|any|v1,v2,...` for a non-empty
array, `key|value` for a non-empty string, nothing otherwise. -/
def buildRemoteFilters (queryKey : JStr) (filterValues : List (JStr × LVal)) :
    List JStr :=
  (match objGet qvKey filterValues with
   | some (.lstr s) => if s.isEmpty then [] else [queryKey ++ 124 :: trimB s]
   | _ => [])
  ++ (filterValues.filter (fun kv => kv.1 != qvKey)).filterMap (fun kv =>
      match kv.2 with
      | .larr l =>
          if l.isEmpty then none
          else some (kv.1 ++ strb "|array|any|" ++ joinCommaVals l)
      | .lstr s => if s.isEmpty then none else some (kv.1 ++ 124 :: s)
      | _ => none)

/-- Sort serialization of `handleRemoteData` (`field|direction` with the
direction defaulting to `asc` when the entry has no direction part). -/
def buildSortString (sort : Option JStr) : Option JStr :=
  match sort with
  | some s0 => some (sortKeyOf s0 ++ 124 :: (sortOrderOf s0).getD (strb "asc"))
  | none => none

/-- Modelled from the spec: `buildQueryUrl` comes from the external
`mongoose-url-query` package (not part of this repository); per spec §4.4
and §6, the URL is the base endpoint plus query parameters for `page`
(omitted when absent), `limit`, `sort` and the filter strings.  The URL is
modelled as its query-parameter list. -/
def buildQueryUrl (page : Option Int) (limit : Int) (sort : Option JStr)
    (filters : Option (List JStr)) : List (JStr × JStr) :=
  (match page with
   | some p => [(strb "page", intToBytes p)]
   | none => [])
  ++ [(strb "limit", intToBytes limit)]
  ++ (match sort with
      | some s => [(strb "sort", s)]
      | none => [])
  ++ (match filters with
      | some fs => fs.map (fun f => (strb "filters", f))
      | none => [])

/-- Remote request construction of `handleRemoteData`: page only when
`page > 1`, always `limit`, the serialized sort and filters, and the
`abbreviated` flag appended when set. -/
def handleRemoteDataRequest (queryKey : JStr) (abbreviated : Bool)
    (st : EngineState LVal) : List (JStr × JStr) :=
  let filters := buildRemoteFilters queryKey st.filterValues
  buildQueryUrl (if 1 < st.page then some st.page else none) st.limit
      (buildSortString st.sort) (if filters.isEmpty then none else some filters)
    ++ (if abbreviated then [(strb "abbreviated", strb "true")] else [])

theorem objGet_append {α : Type} (k : JStr) (a b : List (JStr × α)) :
    objGet k (a ++ b)
      = match objGet k a with
        | some v => some v
        | none => objGet k b := by
  induction a with
  | nil => simp [objGet]
  | cons kv rest ih =>
      rcases kv with ⟨k', v'⟩
      by_cases h : k' = k <;> simp [objGet, h, ih]

theorem objGet_map_const {α β : Type} (k c : JStr) (h : ¬ c = k) (f : β → JStr × α)
    (hf : ∀ x, (f x).1 = c) (l : List β) :
    objGet k (l.map f) = none := by
  induction l with
  | nil => rfl
  | cons x xs ih =>
      have hx := hf x
      rcases hfx : f x with ⟨k', v'⟩
      rw [hfx] at hx
      simp only at hx
      subst hx
      simp only [List.map_cons, hfx, objGet]
      rw [if_neg h]
      exact ih

/-- C7: the constructed remote request contains a `page` parameter exactly
when `page > 1` (with the page's decimal rendering), always a `limit`
parameter, a `sort` parameter encoding `field|direction` (direction
defaulting to `asc`) when a sort entry is present, a `key|value` filter
entry for each non-empty scalar filter, a `key|array|any|v1,v2,...` entry
for each non-empty array filter, and `queryKey|trimmed-queryValue` when
`queryValue` is non-empty. -/
theorem remote_url_shape (queryKey : JStr) (ab : Bool) (st : EngineState LVal) :
    objGet (strb "page") (handleRemoteDataRequest queryKey ab st)
        = (if 1 < st.page then some (intToBytes st.page) else none) ∧
      objGet (strb "limit") (handleRemoteDataRequest queryKey ab st)
          = some (intToBytes st.limit) ∧
      (∀ s0, st.sort = some s0 →
        objGet (strb "sort") (handleRemoteDataRequest queryKey ab st)
          = some (sortKeyOf s0 ++ 124 :: (sortOrderOf s0).getD (strb "asc"))) ∧
      (∀ k s, (k, LVal.lstr s) ∈ st.filterValues → ¬ k = qvKey → ¬ s.isEmpty = true →
        (strb "filters", k ++ 124 :: s) ∈ handleRemoteDataRequest queryKey ab st) ∧
      (∀ k l, (k, LVal.larr l) ∈ st.filterValues → ¬ k = qvKey → ¬ l.isEmpty = true →
        (strb "filters", k ++ strb "|array|any|" ++ joinCommaVals l)
          ∈ handleRemoteDataRequest queryKey ab st) ∧
      (∀ s, objGet qvKey st.filterValues = some (LVal.lstr s) → ¬ s.isEmpty = true →
        (strb "filters", queryKey ++ 124 :: trimB s)
          ∈ handleRemoteDataRequest queryKey ab st) := by
  have habbr : ∀ k : JStr, ¬ k = strb "abbreviated" →
      objGet k (if ab then [(strb "abbreviated", strb "true")] else []) = none := by
    intro k hk
    have hk' : ¬ strb "abbreviated" = k := fun he => hk he.symm
    cases ab <;> simp [objGet, hk']
  have hfilters_none : ∀ k : JStr, ¬ (strb "filters") = k →
      objGet k (match (if (buildRemoteFilters queryKey st.filterValues).isEmpty then none
          else some (buildRemoteFilters queryKey st.filterValues)) with
        | some fs => fs.map (fun f => (strb "filters", f))
        | none => ([] : List (JStr × JStr))) = none := by
    intro k hk
    cases hif : (if (buildRemoteFilters queryKey st.filterValues).isEmpty then none
        else some (buildRemoteFilters queryKey st.filterValues)) with
    | none => rfl
    | some fs => exact objGet_map_const k (strb "filters") hk _ (fun _ => rfl) fs
  have hmem_filters : ∀ f, f ∈ buildRemoteFilters queryKey st.filterValues →
      (strb "filters", f) ∈ handleRemoteDataRequest queryKey ab st := by
    intro f hf
    have hne : ¬ (buildRemoteFilters queryKey st.filterValues).isEmpty = true := by
      intro he
      rw [List.isEmpty_iff] at he
      rw [he] at hf
      cases hf
    unfold handleRemoteDataRequest
    refine List.mem_append.mpr (Or.inl ?_)
    unfold buildQueryUrl
    refine List.mem_append.mpr (Or.inr ?_)
    rw [if_neg hne]
    exact List.mem_map.mpr ⟨f, hf, rfl⟩
  refine ⟨?_, ?_, ?_, ?_, ?_, ?_⟩
  · unfold handleRemoteDataRequest buildQueryUrl
    rw [objGet_append, objGet_append, objGet_append, objGet_append]
    by_cases hp : 1 < st.page
    · simp [hp, objGet]
    · simp only [hp, if_false, ite_false, objGet]
      rw [if_neg (by decide : ¬ strb "limit" = strb "page")]
      have h1 : objGet (strb "page") (match buildSortString st.sort with
          | some s => [(strb "sort", s)]
          | none => ([] : List (JStr × JStr))) = none := by
        cases buildSortString st.sort <;>
          simp [objGet, (by decide : ¬ strb "sort" = strb "page")]
      have h2 := hfilters_none (strb "page") (by decide)
      have h3 := habbr (strb "page") (by decide)
      simp only [objGet] at h1 h2 ⊢
      rw [h1, h2, h3]
  · unfold handleRemoteDataRequest buildQueryUrl
    rw [objGet_append, objGet_append, objGet_append, objGet_append]
    cases hp : (if 1 < st.page then some st.page else none) <;>
      simp [objGet, (by decide : ¬ strb "page" = strb "limit")]
  · intro s0 hs0
    unfold handleRemoteDataRequest buildQueryUrl
    rw [objGet_append, objGet_append, objGet_append, objGet_append]
    rw [hs0]
    have h2 := hfilters_none (strb "sort") (by decide)
    have h3 := habbr (strb "sort") (by decide)
    cases hp : (if 1 < st.page then some st.page else none) <;>
      simp [objGet, buildSortString, (by decide : ¬ strb "page" = strb "sort"),
        (by decide : ¬ strb "sort" = strb "page"),
        (by decide : ¬ strb "limit" = strb "sort"),
        (by decide : ¬ strb "sort" = strb "limit"), h2, h3]
  · intro k s hks hkq hs
    apply hmem_filters
    unfold buildRemoteFilters
    refine List.mem_append.mpr (Or.inr ?_)
    refine List.mem_filterMap.mpr ⟨(k, LVal.lstr s), ?_, ?_⟩
    · exact List.mem_filter.mpr ⟨hks, by simp [hkq]⟩
    · simp [hs]
  · intro k l hks hkq hl
    apply hmem_filters
    unfold buildRemoteFilters
    refine List.mem_append.mpr (Or.inr ?_)
    refine List.mem_filterMap.mpr ⟨(k, LVal.larr l), ?_, ?_⟩
    · exact List.mem_filter.mpr ⟨hks, by simp [hkq]⟩
    · simp [hl]
  · intro s hqv hs
    apply hmem_filters
    unfold buildRemoteFilters
    rw [hqv]
    refine List.mem_append.mpr (Or.inl ?_)
    simp [hs]

/-- Remote-mode state of the spec's URL-shape scenario: page 2, limit 20,
sort `price desc`, filter `status='active'`. -/
def exRemoteSt : EngineState LVal :=
  ⟨2, 20, some (strb "price desc"), [(strb "status", LVal.lstr (strb "active"))], none⟩

/-- C7 witness: the theorem applied at the spec's scenario — the request
contains `page=2`, `limit=20`, a `price|desc` sort parameter and a
`status|active` filter parameter. -/
theorem remote_url_shape_witness :
    objGet (strb "page") (handleRemoteDataRequest (strb "name") false exRemoteSt)
        = some (strb "2") ∧
      objGet (strb "limit") (handleRemoteDataRequest (strb "name") false exRemoteSt)
          = some (strb "20") ∧
      objGet (strb "sort") (handleRemoteDataRequest (strb "name") false exRemoteSt)
          = some (strb "price|desc") ∧
      (strb "filters", strb "status|active")
        ∈ handleRemoteDataRequest (strb "name") false exRemoteSt := by
  have h := remote_url_shape (strb "name") false exRemoteSt
  refine ⟨?_, ?_, ?_, ?_⟩
  · rw [h.1]
    decide
  · rw [h.2.1]
    decide
  · rw [h.2.2.1 (strb "price desc") rfl]
    decide
  · have hm := h.2.2.2.1 (strb "status") (strb "active") (by decide) (by decide) (by decide)
    have he : strb "status" ++ 124 :: strb "active" = strb "status|active" := by decide
    rw [he] at hm
    exact hm

/-! ## Claim C2: request cancellation (the coordinator race) -/

/-- Eventual outcome of one scheduled fetch: the response it will deliver
when it completes (the injected `fetchFn` collaborator may deliver it even
after its abort signal fired — spec §5: "the operation itself may still run
to completion in the background"). -/
inductive FetchOutcome : Type
  | ok : List Item → Int → FetchOutcome
  | errorOut : JsError → FetchOutcome
deriving DecidableEq

/-- Per-endpoint coordinator bookkeeping of the source: `timers[endpoint]`
(the armed debounce timer, carrying the scheduled request and its eventual
response), `aborters[endpoint]` (the current controller id), the set of
aborted controller ids, and the started-but-not-completed fetches. -/
structure CoordState : Type where
  timer : Option (Nat × FetchOutcome)
  ctrl : Option Nat
  aborted : List Nat
  inFlight : List (Nat × FetchOutcome)
deriving DecidableEq

/-- Source `abortRequest`: abort and drop the registered controller, clear
and drop the pending timer. -/
def abortRequest (c : CoordState) : CoordState :=
  { c with
    aborted := match c.ctrl with | some i => i :: c.aborted | none => c.aborted
    ctrl := none
    timer := none }

/-- One endpoint's world: coordinator bookkeeping plus the engine's
result-bearing state. -/
structure RemoteWorld : Type where
  coord : CoordState
  engine : RemoteEngine
deriving DecidableEq

/-- Interleaving events of the remote pipeline: `schedule` is a
`fetchData`/`handleRemoteData` invocation (identified by a fresh request id,
with the response its fetch will deliver), `fire` is the debounce timer
firing (controller creation + fetch start), `complete rid` is the arrival of
that fetch's response, running the source's completion/catch code. -/
inductive REvent : Type
  | schedule : Nat → FetchOutcome → REvent
  | fire : REvent
  | complete : Nat → REvent
deriving DecidableEq

/-- Small-step interpreter of the remote pipeline, byte-for-byte from the
source: `schedule` runs `setLoading(true); setError(null)` then
`abortRequest(endpoint)` and arms the timer; `fire` registers
`aborters[endpoint] = new AbortController()` (identified by the request id)
and starts the fetch; `complete` runs the code after `await fetchFn`: it
checks `aborters[endpoint].signal.aborted` — the abort state of the
CURRENT registry controller, not of the controller handed to this very
fetch — resolving null when that registry controller is aborted (or
failing with a TypeError when the registry entry was deleted), and
otherwise committing this fetch's own outcome through `fetchData`. -/
def stepR (w : RemoteWorld) (e : REvent) : RemoteWorld :=
  match e with
  | .schedule rid out =>
      { coord := { abortRequest w.coord with timer := some (rid, out) },
        engine := { w.engine with loading := true, error := none } }
  | .fire =>
      match w.coord.timer with
      | some (rid, out) =>
          { w with
            coord :=
              { w.coord with
                timer := none, ctrl := some rid,
                inFlight := (rid, out) :: w.coord.inFlight } }
      | none => w
  | .complete rid =>
      match w.coord.inFlight.lookup rid with
      | none => w
      | some out =>
          let coord' :=
            { w.coord with inFlight := w.coord.inFlight.filter (fun p => p.1 != rid) }
          match w.coord.ctrl with
          | none =>
              { coord := coord',
                engine :=
                  { w.engine with
                    error := some ⟨strb "TypeError", strb "aborters[endpoint] is undefined"⟩,
                    items := [], total := 0, loading := false, firstLoad := false } }
          | some c =>
              if c ∈ w.coord.aborted then { w with coord := coord' }
              else
                match out with
                | .ok its tot =>
                    { coord := coord',
                      engine :=
                        { w.engine with
                          items := its, total := tot,
                          loading := false, firstLoad := false } }
                | .errorOut err =>
                    if isCancellation err then { w with coord := coord' }
                    else
                      { coord := coord',
                        engine :=
                          { w.engine with
                            error := some err,
                            items := [], total := 0,
                            loading := false, firstLoad := false } }

/-- Engine at mount: empty result, first load in progress. -/
def initialRemoteWorld : RemoteWorld :=
  ⟨⟨none, none, [], []⟩, ⟨[], 0, true, true, none⟩⟩

/-- Run a sequence of interleaving events from the initial world. -/
def runR (events : List REvent) : RemoteWorld :=
  events.foldl stepR initialRemoteWorld

/-- Request A's response payload. -/
def itemsA : List Item := [[(strb "id", JsVal.str (strb "a"))]]

/-- Request B's response payload. -/
def itemsB : List Item := [[(strb "id", JsVal.str (strb "b"))]]

/-- The out-of-order interleaving of the claim: A is scheduled and its fetch
starts; B supersedes it (A's controller is aborted) and B's fetch starts;
B's response lands first, then A's response lands late — delivered anyway
because the collaborator `fetchFn` is not required to abandon an aborted
request. -/
def raceTrace : List REvent :=
  [.schedule 0 (.ok itemsA 1), .fire,
   .schedule 1 (.ok itemsB 2), .fire,
   .complete 1, .complete 0]

/-- Same schedule, but request A's fetch honors its abort signal and
rejects with an AbortError. -/
def honoredTrace : List REvent :=
  [.schedule 0 (.errorOut ⟨strb "AbortError", strb "The operation was aborted"⟩), .fire,
   .schedule 1 (.ok itemsB 2), .fire,
   .complete 1, .complete 0]

/-- C2 (the code violates the claim): in the out-of-order interleaving, A's
late success passes the staleness check — the code consults
`aborters[endpoint].signal.aborted`, which at that moment is B's (never
aborted) controller, not A's own aborted one — so A's result is committed
and overwrites B's: the engine ends with A's items and total even though A
was superseded (its controller id 0 is in the aborted set).  When A's fetch
instead rejects with an AbortError (the default fetch), B's result stands. -/
theorem cancellation_bug_trace :
    (runR raceTrace).engine.items = itemsA ∧
      (runR raceTrace).engine.total = 1 ∧
      0 ∈ (runR raceTrace).coord.aborted ∧
      ¬ (runR raceTrace).engine.items = itemsB ∧
      ¬ (runR raceTrace).engine.total = 2 ∧
      (runR honoredTrace).engine.items = itemsB ∧
      (runR honoredTrace).engine.total = 2 := by
  exact ⟨by decide, by decide, by decide, by decide, by decide, by decide, by decide⟩

/-! ## URL codec: percent encoding (`encodeURIComponent` / `decodeURIComponent`) -/

/-- Bytes `encodeURIComponent` leaves unescaped: ASCII alphanumerics and
`- _ . ! ~ * ' ( )`.  The function operates per UTF-8 byte (every byte of a
multi-byte character is ≥ 0x80 and hence escaped), so the byte-level model
is exact. -/
def isUnresB (b : UInt8) : Bool :=
  (48 ≤ b && b ≤ 57) || (65 ≤ b && b ≤ 90) || (97 ≤ b && b ≤ 122) ||
    b == 45 || b == 95 || b == 46 || b == 33 || b == 126 || b == 42 ||
    b == 39 || b == 40 || b == 41

/-- Upper-case hex digit of a value below 16. -/
def hexDigitUp (n : Nat) : UInt8 :=
  if n < 10 then 48 + UInt8.ofNat n else 55 + UInt8.ofNat n

/-- Percent-escape of one byte (`%XX`, upper-case as `encodeURIComponent`
produces). -/
def encByte (b : UInt8) : JStr :=
  [37, hexDigitUp (b.toNat / 16), hexDigitUp (b.toNat % 16)]

/-- Model of `encodeURIComponent`. -/
def euc : JStr → JStr
  | [] => []
  | b :: rest => (if isUnresB b then [b] else encByte b) ++ euc rest

/-- Hex digit value (both cases accepted, as `decodeURIComponent` does). -/
def hexVal (b : UInt8) : Option Nat :=
  if 48 ≤ b && b ≤ 57 then some (b.toNat - 48)
  else if 65 ≤ b && b ≤ 70 then some (b.toNat - 55)
  else if 97 ≤ b && b ≤ 102 then some (b.toNat - 87)
  else none

/-- Decode one `%XX` escape: the two hex digits after the `%`, when both
are valid. -/
def pctDecode (rest : JStr) : Option (UInt8 × JStr) :=
  match rest with
  | h :: l :: rest2 =>
    match hexVal h, hexVal l with
    | some hv, some lv => some (UInt8.ofNat (hv * 16 + lv), rest2)
    | _, _ => none
  | _ => none

/-- Fuel-indexed percent decoder (the fuel only drives the recursion; the
wrapper supplies the input length, which always suffices since at least one
byte is consumed per step). -/
def ducFuel : Nat → JStr → JStr
  | 0, s => s
  | _, [] => []
  | fuel + 1, b :: rest =>
    if b = 37 then
      match pctDecode rest with
      | some (c, rest2) => c :: ducFuel fuel rest2
      | none => b :: ducFuel fuel rest
    else b :: ducFuel fuel rest

/-- Model of `decodeURIComponent`: decode every `%XX` escape.  The real
function throws a URIError on a malformed escape; the model passes the `%`
through instead — only well-formed escapes reach it in this development. -/
def duc (s : JStr) : JStr :=
  ducFuel s.length s

theorem u8_ofNat_toNat (b : UInt8) : UInt8.ofNat b.toNat = b :=
  UInt8.toNat.inj (UInt8.toNat_ofNat_of_lt b.toNat_lt_size)

set_option maxRecDepth 4096 in
theorem byte_enc_roundtrip (b : UInt8) :
    hexVal (hexDigitUp (b.toNat / 16)) = some (b.toNat / 16) ∧
      hexVal (hexDigitUp (b.toNat % 16)) = some (b.toNat % 16) ∧
      UInt8.ofNat ((b.toNat / 16) * 16 + b.toNat % 16) = b ∧
      (isUnresB b = true → ¬ b = 37) := by
  have hfin : ∀ n : Fin 256,
      hexVal (hexDigitUp ((UInt8.ofNat n.val).toNat / 16))
          = some ((UInt8.ofNat n.val).toNat / 16) ∧
        hexVal (hexDigitUp ((UInt8.ofNat n.val).toNat % 16))
            = some ((UInt8.ofNat n.val).toNat % 16) ∧
        UInt8.ofNat (((UInt8.ofNat n.val).toNat / 16) * 16 + (UInt8.ofNat n.val).toNat % 16)
            = UInt8.ofNat n.val ∧
        (isUnresB (UInt8.ofNat n.val) = true → ¬ UInt8.ofNat n.val = 37) := by decide
  have h := hfin ⟨b.toNat, b.toNat_lt_size⟩
  rwa [u8_ofNat_toNat] at h

theorem ducFuel_euc (s : JStr) : ∀ fuel : Nat, (euc s).length ≤ fuel →
    ducFuel fuel (euc s) = s := by
  induction s with
  | nil =>
      intro fuel _
      cases fuel <;> rfl
  | cons b rest ih =>
      intro fuel hfuel
      obtain ⟨h1, h2, h3, h4⟩ := byte_enc_roundtrip b
      by_cases hu : isUnresB b
      · rw [euc, if_pos hu] at hfuel ⊢
        cases fuel with
        | zero => simp at hfuel
        | succ f =>
            show ducFuel (f + 1) (b :: euc rest) = b :: rest
            rw [ducFuel, if_neg (h4 hu)]
            rw [ih f (by simp at hfuel; omega)]
      · rw [euc, if_neg hu] at hfuel ⊢
        cases fuel with
        | zero => simp [encByte] at hfuel
        | succ f =>
            show ducFuel (f + 1)
                (37 :: hexDigitUp (b.toNat / 16) :: hexDigitUp (b.toNat % 16) :: euc rest)
              = b :: rest
            rw [ducFuel, if_pos rfl]
            have hpd : pctDecode
                (hexDigitUp (b.toNat / 16) :: hexDigitUp (b.toNat % 16) :: euc rest)
              = some (UInt8.ofNat ((b.toNat / 16) * 16 + b.toNat % 16), euc rest) := by
              rw [pctDecode, h1, h2]
            rw [hpd, h3]
            show b :: ducFuel f (euc rest) = b :: rest
            rw [ih f (by simp [encByte] at hfuel; omega)]

theorem duc_euc (s : JStr) : duc (euc s) = s :=
  ducFuel_euc s (euc s).length (Nat.le_refl _)

/-! ## URL codec: JSON (`JSON.stringify` of filter arrays, `JSON.parse` on decode)

The JSON values notated by this codec are scalars and arrays of scalars:
`encodeURIComponent` output contains no `[` or `\x7b` (both are escaped), and
the only stringified values are filter arrays, whose elements are strings
(per the engine's data model).  Nested arrays and objects therefore cannot
occur in any string this codec parses, and the model's parser rejects them;
numbers are carried as their literal text (their numeric value is never
used). -/

/-- Scalar JSON value. -/
inductive UrlScalar : Type
  | sstr : JStr → UrlScalar
  | snum : JStr → UrlScalar
  | sbool : Bool → UrlScalar
  | snull : UrlScalar
deriving DecidableEq

/-- Dynamic value held in `filterValues` after a URL decode: a scalar or an
array of scalars. -/
inductive UrlVal : Type
  | ustr : JStr → UrlVal
  | unum : JStr → UrlVal
  | ubool : Bool → UrlVal
  | unull : UrlVal
  | uarr : List UrlScalar → UrlVal
deriving DecidableEq

/-- Lower-case hex digit of a value below 16. -/
def hexDigitLow (n : Nat) : UInt8 :=
  if n < 10 then 48 + UInt8.ofNat n else 87 + UInt8.ofNat n

/-- JSON string escaping of one byte, as `JSON.stringify` performs it:
quote and backslash escaped, the five shorthand control escapes, `\u00XX`
for other control bytes, everything else verbatim. -/
def escByte (b : UInt8) : JStr :=
  if b = 34 then [92, 34]
  else if b = 92 then [92, 92]
  else if b = 8 then [92, 98]
  else if b = 9 then [92, 116]
  else if b = 10 then [92, 110]
  else if b = 12 then [92, 102]
  else if b = 13 then [92, 114]
  else if b < 32 then [92, 117, 48, 48, hexDigitLow (b.toNat / 16), hexDigitLow (b.toNat % 16)]
  else [b]

/-- JSON string escaping of a whole string. -/
def escStr : JStr → JStr
  | [] => []
  | b :: rest => escByte b ++ escStr rest

/-- `JSON.stringify` of one scalar.  A number renders as its carried
literal text. -/
def jsonStringifyScalar : UrlScalar → JStr
  | .sstr s => 34 :: escStr s ++ [34]
  | .snum raw => raw
  | .sbool true => strb "true"
  | .sbool false => strb "false"
  | .snull => strb "null"

/-- Comma-join. -/
def joinCommaStr : List JStr → JStr
  | [] => []
  | [x] => x
  | x :: rest => x ++ 44 :: joinCommaStr rest

/-- `JSON.stringify` of an array of scalars (no whitespace, as the
single-argument `JSON.stringify` emits). -/
def jsonStringifyUrlArr (l : List UrlScalar) : JStr :=
  91 :: joinCommaStr (l.map jsonStringifyScalar) ++ [93]

/-- JSON whitespace. -/
def isJsonWs (b : UInt8) : Bool :=
  b == 32 || b == 9 || b == 10 || b == 13

/-- Skip JSON whitespace. -/
def skipWs (s : JStr) : JStr :=
  s.dropWhile isJsonWs

/-- ASCII digit test. -/
def isDigitB (b : UInt8) : Bool :=
  48 ≤ b && b ≤ 57

/-- Single-character JSON escapes and their decoded byte. -/
def escCharVal (e : UInt8) : Option UInt8 :=
  if e = 34 then some 34
  else if e = 92 then some 92
  else if e = 47 then some 47
  else if e = 98 then some 8
  else if e = 116 then some 9
  else if e = 110 then some 10
  else if e = 102 then some 12
  else if e = 114 then some 13
  else none

/-- UTF-8 encoding of a code unit below 0x10000 (surrogate pairs are not
combined; the escapes this codec ever parses are `\u00XX` control escapes
produced by its own serializer). -/
def utf8enc (n : Nat) : JStr :=
  if n < 128 then [UInt8.ofNat n]
  else if n < 2048 then [UInt8.ofNat (192 + n / 64), UInt8.ofNat (128 + n % 64)]
  else [UInt8.ofNat (224 + n / 4096), UInt8.ofNat (128 + (n / 64) % 64),
    UInt8.ofNat (128 + n % 64)]

/-- Decode a `\uXXXX` escape body: four hex digits, yielding the UTF-8
bytes of the code unit. -/
def hex4Decode (rest2 : JStr) : Option (JStr × JStr) :=
  match rest2 with
  | h1 :: h2 :: h3 :: h4 :: rest3 =>
    match hexVal h1, hexVal h2, hexVal h3, hexVal h4 with
    | some a, some b2, some c2, some d =>
        some (utf8enc (((a * 16 + b2) * 16 + c2) * 16 + d), rest3)
    | _, _, _, _ => none
  | _ => none

/-- Decode the body of one backslash escape (the bytes after the `\`),
yielding the decoded bytes and the remaining input. -/
def escDecode (rest : JStr) : Option (JStr × JStr) :=
  match rest with
  | e :: rest2 =>
    match escCharVal e with
    | some c => some ([c], rest2)
    | none => if e = 117 then hex4Decode rest2 else none
  | [] => none

/-- Parse a JSON string body (after the opening quote) up to the closing
quote; fuel-indexed (one unit per produced chunk). -/
def parseStringBody : Nat → JStr → Option (JStr × JStr)
  | 0, _ => none
  | _, [] => none
  | fuel + 1, b :: rest =>
    if b = 34 then some ([], rest)
    else if b = 92 then
      match escDecode rest with
      | some (bs, rest2) => (parseStringBody fuel rest2).map (fun p => (bs ++ p.1, p.2))
      | none => none
    else if b < 32 then none
    else (parseStringBody fuel rest).map (fun p => (b :: p.1, p.2))

/-- Leading digit run. -/
def takeDigits (s : JStr) : JStr × JStr :=
  s.span isDigitB

/-- Integer part of a JSON number (a bare `0`, or a nonzero digit followed
by digits). -/
def parseIntPart (s : JStr) : Option (JStr × JStr) :=
  match s with
  | [] => none
  | b :: r =>
    if b = 48 then some ([48], r)
    else if 49 ≤ b && b ≤ 57 then
      some (b :: (takeDigits r).1, (takeDigits r).2)
    else none

/-- Optional fraction part (`.` then at least one digit). -/
def parseFracPart (s : JStr) : Option (JStr × JStr) :=
  match s with
  | 46 :: r =>
      if (takeDigits r).1.isEmpty then none
      else some (46 :: (takeDigits r).1, (takeDigits r).2)
  | _ => some ([], s)

/-- Optional exponent part (`e`/`E`, optional sign, at least one digit). -/
def parseExpPart (s : JStr) : Option (JStr × JStr) :=
  match s with
  | [] => some ([], s)
  | e :: r =>
    if e = 101 || e = 69 then
      match r with
      | c :: r2 =>
        if c = 43 || c = 45 then
          if (takeDigits r2).1.isEmpty then none
          else some (e :: c :: (takeDigits r2).1, (takeDigits r2).2)
        else if (takeDigits r).1.isEmpty then none
        else some (e :: (takeDigits r).1, (takeDigits r).2)
      | [] => none
    else some ([], e :: r)

/-- Parse a JSON number, returning its literal text. -/
def parseJsonNumber (s : JStr) : Option (JStr × JStr) :=
  match s with
  | 45 :: r =>
    match parseIntPart r with
    | none => none
    | some (ip, r1) =>
      match parseFracPart r1 with
      | none => none
      | some (fp, r2) =>
        match parseExpPart r2 with
        | none => none
        | some (ep, r3) => some (45 :: ip ++ fp ++ ep, r3)
  | _ =>
    match parseIntPart s with
    | none => none
    | some (ip, r1) =>
      match parseFracPart r1 with
      | none => none
      | some (fp, r2) =>
        match parseExpPart r2 with
        | none => none
        | some (ep, r3) => some (ip ++ fp ++ ep, r3)

/-- Parse one scalar JSON token (string, `true`, `false`, `null`, or a
number). -/
def parseScalarTok (fuel : Nat) (s : JStr) : Option (UrlScalar × JStr) :=
  match s with
  | [] => none
  | b :: rest =>
    if b = 34 then (parseStringBody fuel rest).map (fun p => (UrlScalar.sstr p.1, p.2))
    else if startsWithB s (strb "true") then some (.sbool true, s.drop 4)
    else if startsWithB s (strb "false") then some (.sbool false, s.drop 5)
    else if startsWithB s (strb "null") then some (.snull, s.drop 4)
    else (parseJsonNumber s).map (fun p => (UrlScalar.snum p.1, p.2))

/-- After one parsed element `v`, look at the next significant byte: a
comma continues with `next`, a closing bracket ends the array, anything
else is malformed. -/
def parseElemsCont (next : JStr → Option (List UrlScalar × JStr))
    (v : UrlScalar) (r : JStr) : Option (List UrlScalar × JStr) :=
  match skipWs r with
  | 44 :: r2 => (next r2).map (fun p => (v :: p.1, p.2))
  | 93 :: r2 => some ([v], r2)
  | _ => none

/-- Parse the comma-separated scalars of a non-empty array up to and
including the closing bracket. -/
def parseElems : Nat → JStr → Option (List UrlScalar × JStr)
  | 0, _ => none
  | fuel + 1, s =>
    match parseScalarTok (fuel + 1) (skipWs s) with
    | none => none
    | some (v, r) => parseElemsCont (parseElems fuel) v r

/-- Embed a parsed scalar into the value domain. -/
def scalarToVal : UrlScalar → UrlVal
  | .sstr str => UrlVal.ustr str
  | .snum n => UrlVal.unum n
  | .sbool bb => UrlVal.ubool bb
  | .snull => UrlVal.unull

/-- Parse the remainder of an array after its opening bracket: a non-empty
comma-separated element list, or (when that fails) the immediately closing
bracket of an empty array. -/
def parseArrTail (fuel : Nat) (u : JStr) : Option UrlVal :=
  match parseElems fuel (skipWs u) with
  | some (l, r2) => if (skipWs r2).isEmpty then some (.uarr l) else none
  | none =>
    match skipWs u with
    | 93 :: r2 => if (skipWs r2).isEmpty then some (.uarr []) else none
    | _ => none

/-- Parse a top-level scalar and require only whitespace to remain. -/
def parseScalarTop (fuel : Nat) (t : JStr) : Option UrlVal :=
  match parseScalarTok fuel t with
  | some (v, r) => if (skipWs r).isEmpty then some (scalarToVal v) else none
  | none => none

/-- Model of `JSON.parse` over the value domain reachable through this
codec (scalars and scalar arrays; see the section comment): parse one value
and require only whitespace to remain.  Nested arrays and objects — which
cannot occur in the parsed strings — are rejected. -/
def jsonParse (s : JStr) : Option UrlVal :=
  match skipWs s with
  | [] => none
  | b :: rest =>
    if b = 91 then parseArrTail (s.length + 1) rest
    else parseScalarTop (s.length + 1) (b :: rest)

/-! ### The parser inverts the serializer on string arrays -/

theorem u8_all (P : UInt8 → Prop) (h : ∀ n : Fin 256, P (UInt8.ofNat n.val)) :
    ∀ b : UInt8, P b := by
  intro b
  have := h ⟨b.toNat, b.toNat_lt_size⟩
  rwa [u8_ofNat_toNat] at this

/-- Shorthand escape byte of the seven shorthand-escaped characters. -/
def esc2 (b : UInt8) : UInt8 :=
  if b = 34 then 34
  else if b = 92 then 92
  else if b = 8 then 98
  else if b = 9 then 116
  else if b = 10 then 110
  else if b = 12 then 102
  else 114

set_option maxRecDepth 8192 in
theorem byteEscClass : ∀ b : UInt8,
    (escByte b = [b] ∧ ¬ b = 34 ∧ ¬ b = 92 ∧ ¬ b < 32)
    ∨ (escByte b = [92, esc2 b] ∧ escCharVal (esc2 b) = some b)
    ∨ (escByte b = [92, 117, 48, 48, hexDigitLow (b.toNat / 16), hexDigitLow (b.toNat % 16)]
        ∧ hexVal (hexDigitLow (b.toNat / 16)) = some (b.toNat / 16)
        ∧ hexVal (hexDigitLow (b.toNat % 16)) = some (b.toNat % 16)
        ∧ utf8enc (((0 * 16 + 0) * 16 + b.toNat / 16) * 16 + b.toNat % 16) = [b]
        ∧ escCharVal 117 = none) := by
  apply u8_all
  decide

set_option maxRecDepth 4096 in
theorem escByte_len_ge (b : UInt8) : 1 ≤ (escByte b).length := by
  have := u8_all (fun b => 1 ≤ (escByte b).length) (by decide)
  exact this b

theorem escStr_len_ge (s : JStr) : s.length ≤ (escStr s).length := by
  induction s with
  | nil => simp [escStr]
  | cons b rest ih =>
      rw [escStr]
      rw [List.length_append, List.length_cons]
      have := escByte_len_ge b
      omega

theorem skipWs_not_ws {b : UInt8} (h : isJsonWs b = false) (t : JStr) :
    skipWs (b :: t) = b :: t := by
  simp [skipWs, List.dropWhile_cons, h]

theorem psb_esc_step (f : Nat) (tail r : JStr) (b e : UInt8) (bs : JStr)
    (hc : escCharVal e = some b)
    (hrec : parseStringBody f tail = some (bs, r)) :
    parseStringBody (f + 1) (92 :: e :: tail) = some (b :: bs, r) := by
  rw [parseStringBody]
  rw [if_neg (by decide : ¬ (92 : UInt8) = 34), if_pos rfl]
  have hd : escDecode (e :: tail) = some ([b], tail) := by
    rw [escDecode, hc]
  rw [hd]
  simp [hrec]

theorem parseStringBody_escStr (s : JStr) : ∀ (fuel : Nat) (r : JStr),
    s.length < fuel → parseStringBody fuel (escStr s ++ 34 :: r) = some (s, r) := by
  induction s with
  | nil =>
      intro fuel r hf
      cases fuel with
      | zero => omega
      | succ f =>
          show parseStringBody (f + 1) (34 :: r) = some ([], r)
          rw [parseStringBody, if_pos rfl]
  | cons b bs ih =>
      intro fuel r hf
      cases fuel with
      | zero => omega
      | succ f =>
          have hih := ih f r (by simp at hf; omega)
          rcases byteEscClass b with ⟨he, h34, h92, hlt⟩ | ⟨he, hc⟩ |
            ⟨he, hx1, hx2, hu8, h117⟩
          · rw [escStr, he]
            show parseStringBody (f + 1) (b :: (escStr bs ++ 34 :: r)) = some (b :: bs, r)
            rw [parseStringBody, if_neg h34, if_neg h92, if_neg hlt, hih]
            rfl
          · rw [escStr, he]
            show parseStringBody (f + 1) (92 :: esc2 b :: (escStr bs ++ 34 :: r))
              = some (b :: bs, r)
            exact psb_esc_step f _ r b (esc2 b) bs hc hih
          · rw [escStr, he]
            show parseStringBody (f + 1)
                (92 :: 117 :: 48 :: 48 :: hexDigitLow (b.toNat / 16)
                  :: hexDigitLow (b.toNat % 16) :: (escStr bs ++ 34 :: r))
              = some (b :: bs, r)
            rw [parseStringBody]
            rw [if_neg (by decide : ¬ (92 : UInt8) = 34), if_pos rfl]
            have hd : escDecode (117 :: 48 :: 48 :: hexDigitLow (b.toNat / 16)
                :: hexDigitLow (b.toNat % 16) :: (escStr bs ++ 34 :: r))
              = some ([b], escStr bs ++ 34 :: r) := by
              rw [escDecode, h117, if_pos rfl]
              rw [hex4Decode, (by decide : hexVal 48 = some 0), hx1, hx2]
              show some (utf8enc (((0 * 16 + 0) * 16 + b.toNat / 16) * 16 + b.toNat % 16),
                escStr bs ++ 34 :: r) = _
              rw [hu8]
            rw [hd]
            show Option.map (fun p => ([b] ++ p.1, p.2))
                (parseStringBody f (escStr bs ++ 34 :: r)) = some (b :: bs, r)
            rw [hih]
            rfl

theorem parseScalarTok_strLit (fuel : Nat) (x r : JStr) (h : x.length < fuel) :
    parseScalarTok fuel (34 :: (escStr x ++ 34 :: r)) = some (UrlScalar.sstr x, r) := by
  rw [parseScalarTok, if_pos rfl, parseStringBody_escStr x fuel r h]
  rfl


theorem parseElems_some_step (f : Nat) (s : JStr) (v : UrlScalar) (r : JStr)
    (h : parseScalarTok (f + 1) (skipWs s) = some (v, r)) :
    parseElems (f + 1) s = parseElemsCont (parseElems f) v r := by
  rw [parseElems, h]

theorem parseElemsCont_comma (next : JStr → Option (List UrlScalar × JStr))
    (v : UrlScalar) (r r2 : JStr) (h : skipWs r = 44 :: r2) :
    parseElemsCont next v r = (next r2).map (fun p => (v :: p.1, p.2)) := by
  rw [parseElemsCont, h]
  rfl

theorem parseElemsCont_close (next : JStr → Option (List UrlScalar × JStr))
    (v : UrlScalar) (r r2 : JStr) (h : skipWs r = 93 :: r2) :
    parseElemsCont next v r = some ([v], r2) := by
  rw [parseElemsCont, h]
  rfl

/-- `parseElems` inverts the comma-joined string-literal serialization of a
non-empty list, leaving exactly what follows the closing bracket. -/
theorem parseElems_strLits (l : List JStr) : ∀ (fuel : Nat) (r : JStr),
    l ≠ [] → (l.map List.length).sum + l.length ≤ fuel →
    parseElems fuel
        (joinCommaStr (l.map (fun y => 34 :: (escStr y ++ [34]))) ++ 93 :: r)
      = some (l.map UrlScalar.sstr, r) := by
  induction l with
  | nil => intro fuel r h0 _; exact absurd rfl h0
  | cons x rest ih =>
    intro fuel r _ hf
    cases fuel with
    | zero =>
        simp only [List.map_cons, List.sum_cons, List.length_cons] at hf
        omega
    | succ f =>
      have hxlen : x.length < f + 1 := by
        simp only [List.map_cons, List.sum_cons, List.length_cons] at hf
        omega
      cases rest with
      | nil =>
          have hstream :
              joinCommaStr ([x].map (fun y => 34 :: (escStr y ++ [34]))) ++ 93 :: r
                = 34 :: (escStr x ++ 34 :: (93 :: r)) := by
            simp [joinCommaStr]
          rw [hstream]
          have htok : parseScalarTok (f + 1) (skipWs (34 :: (escStr x ++ 34 :: (93 :: r))))
              = some (UrlScalar.sstr x, 93 :: r) := by
            rw [skipWs_not_ws (by decide)]
            exact parseScalarTok_strLit (f + 1) x (93 :: r) hxlen
          rw [parseElems_some_step f _ _ _ htok]
          rw [parseElemsCont_close _ _ _ r (by rw [skipWs_not_ws (by decide)])]
          rfl
      | cons y rest2 =>
          have hstream :
              joinCommaStr ((x :: y :: rest2).map (fun z => 34 :: (escStr z ++ [34])))
                  ++ 93 :: r
                = 34 :: (escStr x ++ 34 ::
                    (44 :: (joinCommaStr ((y :: rest2).map
                      (fun z => 34 :: (escStr z ++ [34]))) ++ 93 :: r))) := by
            simp [joinCommaStr]
          rw [hstream]
          have htok : parseScalarTok (f + 1)
              (skipWs (34 :: (escStr x ++ 34 ::
                (44 :: (joinCommaStr ((y :: rest2).map
                  (fun z => 34 :: (escStr z ++ [34]))) ++ 93 :: r)))))
              = some (UrlScalar.sstr x,
                  44 :: (joinCommaStr ((y :: rest2).map
                    (fun z => 34 :: (escStr z ++ [34]))) ++ 93 :: r)) := by
            rw [skipWs_not_ws (by decide)]
            exact parseScalarTok_strLit (f + 1) x _ hxlen
          rw [parseElems_some_step f _ _ _ htok]
          rw [parseElemsCont_comma _ _ _ _ (by rw [skipWs_not_ws (by decide)])]
          rw [ih f r (by simp) (by
            simp only [List.map_cons, List.sum_cons, List.length_cons] at hf ⊢
            omega)]
          rfl

theorem jsonParse_arr_step (s rest : JStr) (h : skipWs s = 91 :: rest) :
    jsonParse s = parseArrTail (s.length + 1) rest := by
  rw [jsonParse, h]
  rfl

theorem parseArrTail_elems (fuel : Nat) (u : JStr) (l : List UrlScalar) (r2 : JStr)
    (h : parseElems fuel (skipWs u) = some (l, r2)) (h2 : skipWs r2 = []) :
    parseArrTail fuel u = some (.uarr l) := by
  rw [parseArrTail, h]
  show (if (skipWs r2).isEmpty then some (UrlVal.uarr l) else none) = some (UrlVal.uarr l)
  rw [h2]
  rfl

/-- Element serializations are at least as long as the strings plus one,
so the stream length bounds the fuel the element parser needs. -/
theorem joinLits_len (l : List JStr) :
    (l.map List.length).sum + l.length
      ≤ (joinCommaStr (l.map (fun y => 34 :: (escStr y ++ [34])))).length + 1 := by
  induction l with
  | nil => simp [joinCommaStr]
  | cons x rest ih =>
      cases rest with
      | nil =>
          have := escStr_len_ge x
          simp [joinCommaStr]
          omega
      | cons y rest2 =>
          have hx := escStr_len_ge x
          have hrw : joinCommaStr ((x :: y :: rest2).map
                (fun z => 34 :: (escStr z ++ [34])))
              = (34 :: (escStr x ++ [34])) ++ 44 ::
                  joinCommaStr ((y :: rest2).map (fun z => 34 :: (escStr z ++ [34]))) := by
            simp [joinCommaStr]
          rw [hrw]
          simp only [List.map_cons, List.sum_cons, List.length_cons,
            List.length_append] at ih ⊢
          omega

/-- Round trip for string arrays: parsing the stringified array of string
scalars recovers it exactly. -/
theorem jsonParse_stringify_strings (l : List JStr) :
    jsonParse (jsonStringifyUrlArr (l.map UrlScalar.sstr))
      = some (UrlVal.uarr (l.map UrlScalar.sstr)) := by
  cases l with
  | nil => decide
  | cons x rest =>
    have hmap : ((x :: rest).map UrlScalar.sstr).map jsonStringifyScalar
        = (x :: rest).map (fun y => 34 :: (escStr y ++ [34])) := by
      simp [List.map_map, Function.comp, jsonStringifyScalar]
    have hshape : jsonStringifyUrlArr ((x :: rest).map UrlScalar.sstr)
        = 91 :: (joinCommaStr ((x :: rest).map (fun y => 34 :: (escStr y ++ [34])))
            ++ 93 :: []) := by
      rw [jsonStringifyUrlArr, hmap]
      simp
    have hsk : skipWs (jsonStringifyUrlArr ((x :: rest).map UrlScalar.sstr))
        = 91 :: (joinCommaStr ((x :: rest).map (fun y => 34 :: (escStr y ++ [34])))
            ++ 93 :: []) := by
      rw [hshape]
      exact skipWs_not_ws (by decide) _
    rw [jsonParse_arr_step _ _ hsk]
    obtain ⟨t, ht⟩ : ∃ t,
        joinCommaStr ((x :: rest).map (fun y => 34 :: (escStr y ++ [34]))) = 34 :: t := by
      cases rest with
      | nil => exact ⟨_, rfl⟩
      | cons y rest2 => exact ⟨_, rfl⟩
    apply parseArrTail_elems _ _ _ []
    · have hsk2 : skipWs (joinCommaStr ((x :: rest).map
            (fun y => 34 :: (escStr y ++ [34]))) ++ 93 :: [])
          = joinCommaStr ((x :: rest).map (fun y => 34 :: (escStr y ++ [34])))
              ++ 93 :: [] := by
        rw [ht, List.cons_append]
        exact skipWs_not_ws (by decide) _
      rw [hsk2]
      apply parseElems_strLits
      · simp
      · have hb := joinLits_len (x :: rest)
        rw [hshape]
        simp only [List.length_cons, List.length_append] at hb ⊢
        omega
    · rfl

/-! ## URL synchronization codec

Model of the state↔URL round trip: `updateSearchParamsFromState` /
`updateSearchParams` on the encoding side and `getPageFromUrl`,
`getSortFromUrl`, `getFiltersFromUrl` and the `viewSelected` parameter read
on the decoding side.  A `URLSearchParams` object is modelled as its entry
list in insertion order, holding the component-decoded key and value
strings (the transport percent-encoding applied by `toString` and undone by
the constructor round-trips exactly and is not modelled; `euc`/`duc` model
the additional explicit `encodeURIComponent`/`decodeURIComponent` layer the
hook applies on top).  Filter values on both sides live in the `UrlVal`
domain.  `queryValue` is matched as a string in the encoder: the hook only
ever stores strings there (search-field input or `decodeURIComponent`
output), so a non-string `queryValue` does not occur in reachable states. -/

/-- A `URLSearchParams` object: entries in insertion order. -/
abbrev Params : Type := List (JStr × JStr)

/-- The `updates` record handed to `updateSearchParams`: keys to values,
`none` meaning the JavaScript `null` deletion marker. -/
abbrev Updates : Type := List (JStr × Option JStr)

/-- `URLSearchParams.delete`: removes every entry with the key. -/
def paramDelete (k : JStr) (ps : Params) : Params :=
  ps.filter (fun p => ¬ p.1 = k)

/-- `URLSearchParams.set`: overwrites the first entry with the key and
removes the others, or appends when the key is absent. -/
def paramSet (k v : JStr) : Params → Params
  | [] => [(k, v)]
  | (k2, v2) :: rest =>
    if k2 = k then (k, v) :: paramDelete k rest
    else (k2, v2) :: paramSet k v rest

/-- One `Object.entries(updates).forEach` step of `updateSearchParams`:
`null` deletes, a string sets. -/
def applyUpd (ps : Params) (kv : JStr × Option JStr) : Params :=
  match kv.2 with
  | none => paramDelete kv.1 ps
  | some v => paramSet kv.1 v ps

/-- `updateSearchParams`: apply every update in insertion order. -/
def applyUpdates (ps : Params) (us : Updates) : Params :=
  us.foldl applyUpd ps

/-- `String.prototype.replace` with a plain one-character search string:
replaces only the first occurrence. -/
def replaceFirstB (a b : UInt8) : JStr → JStr
  | [] => []
  | c :: rest => if c = a then b :: rest else c :: replaceFirstB a b rest

/-- JavaScript whitespace trimmed by `parseInt` (ASCII part). -/
def isJsWsB (b : UInt8) : Bool :=
  b == 32 || b == 9 || b == 10 || b == 13 || b == 11 || b == 12

/-- Value of the leading decimal-digit run, `none` when there is none
(the digits-exhausted case of `parseInt` yielding `NaN`). -/
def digitsVal (s : JStr) : Option Nat :=
  if (s.takeWhile isDigitB).isEmpty then none
  else some ((s.takeWhile isDigitB).foldl (fun a b => a * 10 + (b.toNat - 48)) 0)

/-- Sign handling of `parseInt` after whitespace trimming. -/
def parseIntCore (s : JStr) : Option Int :=
  match s with
  | [] => none
  | b :: rest =>
    if b = 45 then (digitsVal rest).map (fun n => -(n : Int))
    else if b = 43 then (digitsVal rest).map (fun n => (n : Int))
    else (digitsVal (b :: rest)).map (fun n => (n : Int))

/-- Model of `parseInt(s, 10)`; `none` models `NaN`. -/
def parseIntJS (s : JStr) : Option Int :=
  parseIntCore (s.dropWhile isJsWsB)

/-- The `updates.page` assignment: the page rendered when beyond 1, else
the `null` deletion marker. -/
def pageUpdate (page : Int) : Option JStr :=
  if 1 < page then some (intToBytes page) else none

/-- The `updates.sort` assignment: `sort?.length` is truthy exactly when a
sort entry exists; its first space is replaced by `|`. -/
def sortUpdate (sort : Option JStr) : Option JStr :=
  match sort with
  | some s => some (replaceFirstB 32 124 s)
  | none => none

/-- The `updates.query` assignment: a truthy (non-empty string)
`filterValues.queryValue` is component-encoded, anything else deletes. -/
def queryUpdate (fv : List (JStr × UrlVal)) : Option JStr :=
  match objGet qvKey fv with
  | some (.ustr q) => if q.isEmpty then none else some (euc q)
  | _ => none

/-- The `updates.viewSelected` assignment: the raw name when truthy. -/
def viewUpdate (vs : Option JStr) : Option JStr :=
  match vs with
  | some v => if v.isEmpty then none else some v
  | none => none

/-- The four unconditional assignments at the top of
`updateSearchParamsFromState`, in their source order. -/
def baseUpdates (st : EngineState UrlVal) : Updates :=
  objSet (strb "viewSelected") (viewUpdate st.viewSelected)
    (objSet (strb "query") (queryUpdate st.filterValues)
      (objSet (strb "sort") (sortUpdate st.sort)
        (objSet (strb "page") (pageUpdate st.page) [])))

/-- The clearing pass: every `filter_`-prefixed key of the current params
is marked for deletion. -/
def clearFilterUpdates (u : Updates) (current : Params) : Updates :=
  current.foldl
    (fun acc p =>
      if startsWithB p.1 (strb "filter_") then objSet p.1 none acc else acc)
    u

/-- One `Object.entries(filterValues)` entry of the setting pass:
`queryValue` and empty or non-encodable values contribute nothing; a
non-empty array is JSON-stringified, a non-empty string is
component-encoded, each under the `filter_`-prefixed key. -/
def encFilterEntry (kv : JStr × UrlVal) : Option (JStr × Option JStr) :=
  if kv.1 = qvKey then none
  else
    match kv.2 with
    | .uarr elems =>
        if elems.isEmpty then none
        else some (strb "filter_" ++ kv.1, some (jsonStringifyUrlArr elems))
    | .ustr s =>
        if s.isEmpty then none
        else some (strb "filter_" ++ kv.1, some (euc s))
    | _ => none

/-- The setting pass over `Object.entries(filterValues)`. -/
def setFilterUpdates (u : Updates) (fv : List (JStr × UrlVal)) : Updates :=
  fv.foldl
    (fun acc kv =>
      match encFilterEntry kv with
      | some p => objSet p.1 p.2 acc
      | none => acc)
    u

/-- The full `updates` record `updateSearchParamsFromState` builds from the
state and the current params. -/
def updatesFromState (st : EngineState UrlVal) (current : Params) : Updates :=
  setFilterUpdates (clearFilterUpdates (baseUpdates st) current) st.filterValues

/-- Source `updateSearchParamsFromState` followed by `updateSearchParams`:
the new params after encoding the state over the current ones; with URL
sync disabled both functions return without touching the URL. -/
def updateSearchParamsFromState (syncWithUrl : Bool) (st : EngineState UrlVal)
    (current : Params) : Params :=
  if syncWithUrl then applyUpdates current (updatesFromState st current) else current

/-- Source `getDefaultSort`: a `defaultSort` prop (an always-truthy object
of field and direction) renders as the single entry `field direction`. -/
def getDefaultSortM (defaultSort : Option (JStr × JStr)) : Option JStr :=
  match defaultSort with
  | some fd => some (fd.1 ++ 32 :: fd.2)
  | none => none

/-- Source `getPageFromUrl`; `none` models the `NaN` that `parseInt`
returns on a non-numeric truthy param. -/
def getPageFromUrl (syncWithUrl : Bool) (ps : Params) : Option Int :=
  if !syncWithUrl then some 1
  else
    match objGet (strb "page") ps with
    | none => some 1
    | some v => if v.isEmpty then some 1 else parseIntJS v

/-- Source `getSortFromUrl`: a truthy sort param has its first `|` restored
to a space; otherwise the default sort applies. -/
def getSortFromUrl (syncWithUrl : Bool) (defaultSort : Option (JStr × JStr))
    (ps : Params) : Option JStr :=
  if !syncWithUrl then getDefaultSortM defaultSort
  else
    match objGet (strb "sort") ps with
    | some v =>
        if v.isEmpty then getDefaultSortM defaultSort
        else some (replaceFirstB 124 32 v)
    | none => getDefaultSortM defaultSort

/-- The `filters.queryValue` seeding of `getFiltersFromUrl`: present only
when the `query` param is truthy, then component-decoded. -/
def queryBase (ps : Params) : List (JStr × UrlVal) :=
  match objGet (strb "query") ps with
  | some q => if q.isEmpty then [] else [(qvKey, .ustr (duc q))]
  | none => []

/-- Value decoding of one `filter_` param: `JSON.parse` when it succeeds,
else the component-decoded string. -/
def decodeFilterParam (v : JStr) : UrlVal :=
  match jsonParse v with
  | some u => u
  | none => .ustr (duc v)

/-- One `searchParams.forEach` step of `getFiltersFromUrl`.  The source
strips the prefix with `key.replace("filter_", "")`; under the
`startsWith` guard the first occurrence is at position 0, so this is
dropping the 7 prefix bytes. -/
def filtersStep (fs : List (JStr × UrlVal)) (p : JStr × JStr) :
    List (JStr × UrlVal) :=
  if startsWithB p.1 (strb "filter_") then
    objSet (p.1.drop 7) (decodeFilterParam p.2) fs
  else fs

/-- Source `getFiltersFromUrl`. -/
def getFiltersFromUrl (syncWithUrl : Bool) (ps : Params) :
    List (JStr × UrlVal) :=
  if !syncWithUrl then [(qvKey, .ustr [])]
  else ps.foldl filtersStep (queryBase ps)

/-- The `viewSelected` initial read:
`syncWithUrl ? getSearchParams().get("viewSelected") : null`. -/
def getViewSelectedFromUrl (syncWithUrl : Bool) (ps : Params) : Option JStr :=
  if syncWithUrl then objGet (strb "viewSelected") ps else none

/-- The state read back from the URL by the four initial reads.  The page
is an `Option Int` because `parseInt` can yield `NaN` on a hand-written
URL. -/
structure DecodedState : Type where
  page : Option Int
  sort : Option JStr
  filterValues : List (JStr × UrlVal)
  viewSelected : Option JStr
deriving DecidableEq

/-- Decode a params object through the four initial reads. -/
def decodeState (syncWithUrl : Bool) (defaultSort : Option (JStr × JStr))
    (ps : Params) : DecodedState :=
  ⟨getPageFromUrl syncWithUrl ps, getSortFromUrl syncWithUrl defaultSort ps,
    getFiltersFromUrl syncWithUrl ps, getViewSelectedFromUrl syncWithUrl ps⟩

/-- By-value equality of two filter mappings: every key reads the same. -/
def filtersEquiv (a b : List (JStr × UrlVal)) : Prop :=
  ∀ k : JStr, objGet k a = objGet k b

/-- A filter value the codec can carry: a non-empty string whose encoding
is not accidentally JSON-parseable, or a non-empty array of strings. -/
def goodFilterVal : UrlVal → Bool
  | .ustr s => !s.isEmpty && (jsonParse (euc s)).isNone
  | .uarr elems =>
      !elems.isEmpty &&
        elems.all (fun e => match e with | .sstr _ => true | _ => false)
  | _ => false

/-! ### Params and update-list lemmas -/

theorem mem_paramDelete {k : JStr} {ps : Params} {p : JStr × JStr}
    (hp : p ∈ paramDelete k ps) : p ∈ ps :=
  List.mem_of_mem_filter hp

theorem objGet_paramDelete_self (k : JStr) (ps : Params) :
    objGet k (paramDelete k ps) = none := by
  induction ps with
  | nil => rfl
  | cons p rest ih =>
      by_cases h : p.1 = k
      · simpa [paramDelete, List.filter_cons, h] using ih
      · simpa [paramDelete, List.filter_cons, h, objGet] using ih

theorem objGet_paramDelete_ne (k k2 : JStr) (h : ¬ k2 = k) (ps : Params) :
    objGet k2 (paramDelete k ps) = objGet k2 ps := by
  induction ps with
  | nil => rfl
  | cons p rest ih =>
      rcases p with ⟨k3, v3⟩
      rw [paramDelete, List.filter_cons]
      by_cases hh : k3 = k
      · rw [if_neg (by simp [hh])]
        have h3 : ¬ k3 = k2 := by rw [hh]; exact fun hc => h hc.symm
        rw [objGet, if_neg h3]
        exact ih
      · rw [if_pos (by simp [hh]), objGet, objGet]
        by_cases h2 : k3 = k2
        · rw [if_pos h2, if_pos h2]
        · rw [if_neg h2, if_neg h2]
          exact ih

theorem paramDelete_fresh (k : JStr) (ps : Params)
    (h : ∀ p ∈ ps, ¬ p.1 = k) : paramDelete k ps = ps := by
  induction ps with
  | nil => rfl
  | cons p rest ih =>
      have h1 := h p (List.mem_cons_self p rest)
      rw [paramDelete, List.filter_cons, if_pos (by simpa using h1)]
      have := ih (fun q hq => h q (List.mem_cons_of_mem p hq))
      rw [paramDelete] at this
      rw [this]

theorem objGet_paramSet_self (k v : JStr) (ps : Params) :
    objGet k (paramSet k v ps) = some v := by
  induction ps with
  | nil => simp [paramSet, objGet]
  | cons p rest ih =>
      rcases p with ⟨k2, v2⟩
      by_cases h : k2 = k
      · simp [paramSet, h, objGet]
      · simpa [paramSet, h, objGet] using ih

theorem objGet_paramSet_ne (k k2 v : JStr) (h : ¬ k2 = k) (ps : Params) :
    objGet k2 (paramSet k v ps) = objGet k2 ps := by
  induction ps with
  | nil => simp only [paramSet, objGet, if_neg (Ne.symm h)]
  | cons p rest ih =>
      rcases p with ⟨k3, v3⟩
      rw [paramSet]
      by_cases hh : k3 = k
      · rw [if_pos hh, objGet, objGet, if_neg (fun hc => h hc.symm)]
        have h3 : ¬ k3 = k2 := by rw [hh]; exact fun hc => h hc.symm
        rw [if_neg h3, objGet_paramDelete_ne k k2 h rest]
      · rw [if_neg hh, objGet, objGet]
        by_cases h2 : k3 = k2
        · rw [if_pos h2, if_pos h2]
        · rw [if_neg h2, if_neg h2]
          exact ih

theorem paramSet_fresh (k v : JStr) (ps : Params)
    (h : ∀ p ∈ ps, ¬ p.1 = k) : paramSet k v ps = ps ++ [(k, v)] := by
  induction ps with
  | nil => rfl
  | cons p rest ih =>
      rcases p with ⟨k2, v2⟩
      have h1 := h (k2, v2) (List.mem_cons_self _ rest)
      rw [paramSet, if_neg h1, ih (fun q hq => h q (List.mem_cons_of_mem _ hq))]
      rfl

theorem mem_paramSet {k v : JStr} {ps : Params} {p : JStr × JStr}
    (hp : p ∈ paramSet k v ps) : p = (k, v) ∨ p ∈ ps := by
  induction ps with
  | nil =>
      simp [paramSet] at hp
      exact Or.inl hp
  | cons q rest ih =>
      rcases q with ⟨k2, v2⟩
      by_cases h : k2 = k
      · rw [paramSet, if_pos h] at hp
        rcases List.mem_cons.mp hp with h1 | h1
        · exact Or.inl h1
        · exact Or.inr (List.mem_cons_of_mem _ (mem_paramDelete h1))
      · rw [paramSet, if_neg h] at hp
        rcases List.mem_cons.mp hp with h1 | h1
        · exact Or.inr (List.mem_cons.mpr (Or.inl h1))
        · rcases ih h1 with h2 | h2
          · exact Or.inl h2
          · exact Or.inr (List.mem_cons_of_mem _ h2)

theorem mem_applyUpd {ps : Params} {kv : JStr × Option JStr} {p : JStr × JStr}
    (hp : p ∈ applyUpd ps kv) :
    (∃ v, kv.2 = some v ∧ p = (kv.1, v)) ∨ p ∈ ps := by
  rcases kv with ⟨k, o⟩
  cases o with
  | none => exact Or.inr (mem_paramDelete hp)
  | some v =>
      rcases mem_paramSet hp with h | h
      · exact Or.inl ⟨v, rfl, h⟩
      · exact Or.inr h

theorem objGet_applyUpd_self (ps : Params) (k : JStr) (o : Option JStr) :
    objGet k (applyUpd ps (k, o)) = o := by
  cases o with
  | none => exact objGet_paramDelete_self k ps
  | some v => exact objGet_paramSet_self k v ps

theorem objGet_applyUpd_ne (ps : Params) (k k2 : JStr) (o : Option JStr)
    (h : ¬ k2 = k) : objGet k2 (applyUpd ps (k, o)) = objGet k2 ps := by
  cases o with
  | none => exact objGet_paramDelete_ne k k2 h ps
  | some v => exact objGet_paramSet_ne k k2 v h ps

/-! ### Generic object-map lemmas -/

theorem objGet_objSet_self {α : Type} (k : JStr) (v : α) (u : List (JStr × α)) :
    objGet k (objSet k v u) = some v := by
  induction u with
  | nil => simp [objSet, objGet]
  | cons p rest ih =>
      rcases p with ⟨k2, v2⟩
      by_cases h : k2 = k
      · simp [objSet, h, objGet]
      · simpa [objSet, h, objGet] using ih

theorem objGet_objSet_ne {α : Type} (k k2 : JStr) (v : α) (h : ¬ k2 = k)
    (u : List (JStr × α)) : objGet k2 (objSet k v u) = objGet k2 u := by
  induction u with
  | nil => simp only [objSet, objGet, if_neg (Ne.symm h)]
  | cons p rest ih =>
      rcases p with ⟨k3, v3⟩
      rw [objSet]
      by_cases hh : k3 = k
      · rw [if_pos hh, objGet, objGet, if_neg (fun hc => h hc.symm)]
        have h3 : ¬ k3 = k2 := by rw [hh]; exact fun hc => h hc.symm
        rw [if_neg h3]
      · rw [if_neg hh, objGet, objGet]
        by_cases h2 : k3 = k2
        · rw [if_pos h2, if_pos h2]
        · rw [if_neg h2, if_neg h2]
          exact ih

theorem objSet_fresh {α : Type} (k : JStr) (v : α) (u : List (JStr × α))
    (h : ∀ kv ∈ u, ¬ kv.1 = k) : objSet k v u = u ++ [(k, v)] := by
  induction u with
  | nil => rfl
  | cons p rest ih =>
      rcases p with ⟨k2, v2⟩
      have h1 := h (k2, v2) (List.mem_cons_self _ rest)
      rw [objSet, if_neg h1, ih (fun q hq => h q (List.mem_cons_of_mem _ hq))]
      rfl

/-! ### Byte-string helper lemmas -/

theorem startsWithB_append (pre t : JStr) : startsWithB (pre ++ t) pre = true := by
  induction pre with
  | nil => cases t <;> rfl
  | cons b rest ih => simp [startsWithB, ih]

theorem replaceFirstB_ne_nil (a b : UInt8) (s : JStr) (h : ¬ s = []) :
    ¬ replaceFirstB a b s = [] := by
  cases s with
  | nil => exact absurd rfl h
  | cons c rest =>
      rw [replaceFirstB]
      by_cases hc : c = a
      · simp [hc]
      · simp [hc]

theorem replaceFirstB_invol (a b : UInt8) (s : JStr)
    (hb : ¬ b ∈ s) : replaceFirstB b a (replaceFirstB a b s) = s := by
  induction s with
  | nil => rfl
  | cons c rest ih =>
      by_cases hc : c = a
      · rw [replaceFirstB, if_pos hc, replaceFirstB, if_pos rfl, hc]
      · have hcb : ¬ c = b := fun h => hb (h ▸ List.mem_cons_self c rest)
        rw [replaceFirstB, if_neg hc, replaceFirstB, if_neg hcb,
          ih (fun h => hb (List.mem_cons_of_mem c h))]

theorem euc_ne_nil (s : JStr) (h : ¬ s = []) : ¬ euc s = [] := by
  cases s with
  | nil => exact absurd rfl h
  | cons b rest =>
      rw [euc]
      by_cases hb : isUnresB b = true
      · simp [hb]
      · simp [hb, encByte]

/-! ### The page rendering parses back: `parseInt(p.toString(), 10) = p` -/

theorem toDigitsCore_append (fuel : Nat) : ∀ (n : Nat) (acc : List Char),
    Nat.toDigitsCore 10 fuel n acc = Nat.toDigitsCore 10 fuel n [] ++ acc := by
  induction fuel with
  | zero => intro n acc; rfl
  | succ f ih =>
      intro n acc
      rw [Nat.toDigitsCore, Nat.toDigitsCore]
      by_cases h : n / 10 = 0
      · simp [h]
      · simp only [h, if_neg h, if_false]
        rw [ih (n / 10) (Nat.digitChar (n % 10) :: acc),
          ih (n / 10) [Nat.digitChar (n % 10)], List.append_assoc]
        rfl

/-- Decimal value of a digit-character list. -/
def charsVal (cs : List Char) : Nat :=
  cs.foldl (fun a c => a * 10 + (c.toNat - 48)) 0

theorem digitChar_toNat (k : Nat) (h : k < 10) :
    (Nat.digitChar k).toNat = 48 + k := by
  have := (by decide : ∀ j : Fin 10, (Nat.digitChar j.val).toNat = 48 + j.val) ⟨k, h⟩
  exact this

theorem toDigitsCore_spec (fuel : Nat) : ∀ n : Nat, n < fuel →
    charsVal (Nat.toDigitsCore 10 fuel n []) = n ∧
      (∀ c ∈ Nat.toDigitsCore 10 fuel n [], 48 ≤ c.toNat ∧ c.toNat ≤ 57) ∧
      ¬ Nat.toDigitsCore 10 fuel n [] = [] := by
  induction fuel with
  | zero => intro n h; omega
  | succ f ih =>
      intro n h
      have hmod : n % 10 < 10 := Nat.mod_lt n (by omega)
      have hd := digitChar_toNat (n % 10) hmod
      rw [Nat.toDigitsCore]
      by_cases h0 : n / 10 = 0
      · rw [if_pos h0]
        refine ⟨?_, ?_, by simp⟩
        · rw [charsVal, List.foldl_cons, List.foldl_nil, hd]
          omega
        · intro c hc
          simp only [List.mem_singleton] at hc
          rw [hc, hd]
          omega
      · have hge : 10 ≤ n := by
          by_contra hlt
          exact h0 (Nat.div_eq_of_lt (by omega))
        have hrec : n / 10 < f := by
          have h1 : n / 10 < n := Nat.div_lt_self (by omega) (by omega)
          omega
        obtain ⟨ihv, ihd, ihne⟩ := ih (n / 10) hrec
        simp only [h0, if_neg h0, if_false]
        rw [toDigitsCore_append f (n / 10) [Nat.digitChar (n % 10)]]
        refine ⟨?_, ?_, by simp [ihne]⟩
        · rw [charsVal, List.foldl_append]
          have hfold : List.foldl (fun a c => a * 10 + (c.toNat - 48)) 0
              (Nat.toDigitsCore 10 f (n / 10) []) = n / 10 := ihv
          rw [hfold]
          simp only [List.foldl]
          rw [hd]
          have := Nat.mod_add_div n 10
          omega
        · intro c hc
          rcases List.mem_append.mp hc with h1 | h1
          · exact ihd c h1
          · simp at h1
            rw [h1, hd]
            omega

theorem isDigitB_ofNat (m : Nat) (h1 : 48 ≤ m) (h2 : m ≤ 57) :
    isDigitB (UInt8.ofNat m) = true := by
  interval_cases m <;> decide

theorem natBytes_spec (n : Nat) :
    digitsVal (natBytes n) = some n ∧
      (∀ b ∈ natBytes n, isDigitB b = true) ∧ ¬ natBytes n = [] := by
  obtain ⟨hv, hd, hne⟩ := toDigitsCore_spec (n + 1) n (by omega)
  have hdig : ∀ b ∈ natBytes n, isDigitB b = true := by
    intro b hb
    rw [natBytes] at hb
    rcases List.mem_map.mp hb with ⟨c, hc, hcb⟩
    obtain ⟨hc1, hc2⟩ := hd c hc
    rw [← hcb]
    exact isDigitB_ofNat c.toNat hc1 hc2
  refine ⟨?_, hdig, ?_⟩
  · have htake : (natBytes n).takeWhile isDigitB = natBytes n :=
      List.takeWhile_eq_self_iff.mpr hdig
    have hne2 : ¬ natBytes n = [] := by
      rw [natBytes]
      intro hc
      exact hne (List.map_eq_nil_iff.mp hc)
    rw [digitsVal, htake, if_neg (by simp [List.isEmpty_iff, hne2])]
    have hfold : (natBytes n).foldl (fun a b => a * 10 + (b.toNat - 48)) 0 = n := by
      rw [natBytes, List.foldl_map]
      have hext : ∀ (a : Nat), ∀ c ∈ Nat.toDigits 10 n,
          a * 10 + ((UInt8.ofNat c.toNat).toNat - 48) = a * 10 + (c.toNat - 48) := by
        intro a c hc
        obtain ⟨hc1, hc2⟩ := hd c hc
        rw [UInt8.toNat_ofNat_of_lt (show c.toNat < 2 ^ 8 by omega)]
      rw [List.foldl_ext _ _ 0 hext]
      exact hv
    rw [hfold]
  · rw [natBytes]
    intro hc
    exact hne (List.map_eq_nil_iff.mp hc)

set_option maxRecDepth 4096 in
theorem digit_not_ws_sign (b : UInt8) :
    isDigitB b = true → isJsWsB b = false ∧ ¬ b = 45 ∧ ¬ b = 43 := by
  have := u8_all
    (fun b => isDigitB b = true → isJsWsB b = false ∧ ¬ b = 45 ∧ ¬ b = 43)
    (by decide)
  exact this b

theorem parseIntJS_natBytes (n : Nat) : parseIntJS (natBytes n) = some (n : Int) := by
  obtain ⟨hv, hd, hne⟩ := natBytes_spec n
  rcases hb : natBytes n with _ | ⟨b, rest⟩
  · exact absurd hb hne
  · have hdigb : isDigitB b = true := hd b (by rw [hb]; exact List.mem_cons_self b rest)
    obtain ⟨hws, h45, h43⟩ := digit_not_ws_sign b hdigb
    rw [parseIntJS, List.dropWhile_cons, hws]
    simp only [Bool.false_eq_true, if_false]
    rw [parseIntCore, if_neg h45, if_neg h43]
    rw [hb] at hv
    rw [hv]
    rfl

theorem parseIntJS_intToBytes (p : Int) (h : 0 ≤ p) :
    parseIntJS (intToBytes p) = some p := by
  rw [intToBytes, if_neg (by omega)]
  rw [parseIntJS_natBytes p.toNat]
  rw [Int.toNat_of_nonneg h]

/-! ### Structure of the encoded update list -/

theorem filterPrefix_head (t : JStr) : (strb "filter_" ++ t).head? = some 102 := by
  rfl

theorem fixedKey_ne_filterPrefix (k : JStr) (hk : ¬ k.head? = some 102)
    (t : JStr) : ¬ k = strb "filter_" ++ t :=
  fun h => hk (by rw [h]; exact filterPrefix_head t)

theorem baseUpdates_eq (st : EngineState UrlVal) :
    baseUpdates st
      = [(strb "page", pageUpdate st.page), (strb "sort", sortUpdate st.sort),
          (strb "query", queryUpdate st.filterValues),
          (strb "viewSelected", viewUpdate st.viewSelected)] := by
  rfl

theorem clearFilterUpdates_id (current : Params) : ∀ u : Updates,
    (∀ p ∈ current, startsWithB p.1 (strb "filter_") = false) →
    clearFilterUpdates u current = u := by
  induction current with
  | nil => intro u _; rfl
  | cons p rest ih =>
      intro u h
      have hp := h p (List.mem_cons_self p rest)
      simp only [clearFilterUpdates, List.foldl_cons, hp, Bool.false_eq_true,
        if_false]
      exact ih u (fun q hq => h q (List.mem_cons_of_mem p hq))

theorem encFilterEntry_shape (kv : JStr × UrlVal) (p : JStr × Option JStr)
    (h : encFilterEntry kv = some p) :
    ∃ w, p = (strb "filter_" ++ kv.1, some w) := by
  rcases kv with ⟨k, v⟩
  by_cases hq : k = qvKey
  · rw [encFilterEntry, if_pos hq] at h
    exact absurd h (by simp)
  · cases v with
    | ustr s =>
        by_cases hs : s.isEmpty
        · simp [encFilterEntry, hq, hs] at h
        · simp only [encFilterEntry, hq, hs, if_neg, if_false,
            Bool.false_eq_true] at h
          exact ⟨euc s, (Option.some.inj h).symm⟩
    | uarr elems =>
        by_cases hs : elems.isEmpty
        · simp [encFilterEntry, hq, hs] at h
        · simp only [encFilterEntry, hq, hs, if_neg, if_false,
            Bool.false_eq_true] at h
          exact ⟨jsonStringifyUrlArr elems, (Option.some.inj h).symm⟩
    | unum raw => simp [encFilterEntry, hq] at h
    | ubool b => simp [encFilterEntry, hq] at h
    | unull => simp [encFilterEntry, hq] at h

theorem setFilterUpdates_cons (u : Updates) (kv : JStr × UrlVal)
    (rest : List (JStr × UrlVal)) :
    setFilterUpdates u (kv :: rest)
      = setFilterUpdates
          (match encFilterEntry kv with
            | some p => objSet p.1 p.2 u
            | none => u)
          rest :=
  rfl

theorem setFilterUpdates_append (fv : List (JStr × UrlVal)) : ∀ u : Updates,
    (∀ kv ∈ u, ∀ kv2 ∈ fv, ¬ kv.1 = strb "filter_" ++ kv2.1) →
    (fv.map Prod.fst).Nodup →
    setFilterUpdates u fv = u ++ fv.filterMap encFilterEntry := by
  induction fv with
  | nil => intro u _ _; simp [setFilterUpdates]
  | cons kv rest ih =>
      intro u hdisj hnodup
      rw [List.map_cons] at hnodup
      have hnd := List.nodup_cons.mp hnodup
      cases he : encFilterEntry kv with
      | none =>
          simp only [setFilterUpdates_cons, he]
          rw [List.filterMap_cons_none he]
          exact ih u
            (fun q hq kv2 h2 => hdisj q hq kv2 (List.mem_cons_of_mem kv h2))
            hnd.2
      | some p =>
          obtain ⟨w, hp⟩ := encFilterEntry_shape kv p he
          have hfresh : ∀ q ∈ u, ¬ q.1 = p.1 := by
            intro q hq
            rw [hp]
            exact hdisj q hq kv (List.mem_cons_self kv rest)
          simp only [setFilterUpdates_cons, he]
          rw [objSet_fresh p.1 p.2 u hfresh]
          have hih := ih (u ++ [(p.1, p.2)])
            (by
              intro q hq kv2 h2
              rcases List.mem_append.mp hq with h3 | h3
              · exact hdisj q h3 kv2 (List.mem_cons_of_mem kv h2)
              · simp at h3
                rw [h3, hp]
                intro hc
                simp only at hc
                have := List.append_cancel_left hc
                exact hnd.1 (this ▸ List.mem_map_of_mem Prod.fst h2))
            hnd.2
          rw [hih, List.filterMap_cons_some he, List.append_assoc]
          rfl

theorem applyUpdates_append (ps : Params) (us1 us2 : Updates) :
    applyUpdates ps (us1 ++ us2) = applyUpdates (applyUpdates ps us1) us2 :=
  List.foldl_append _ _ _ _

theorem objGet_applyUpdates_no_key (us : Updates) : ∀ (ps : Params) (k : JStr),
    (∀ kv ∈ us, ¬ kv.1 = k) → objGet k (applyUpdates ps us) = objGet k ps := by
  induction us with
  | nil => intro ps k _; rfl
  | cons kv rest ih =>
      intro ps k h
      have h1 := h kv (List.mem_cons_self kv rest)
      show objGet k (applyUpdates (applyUpd ps kv) rest) = objGet k ps
      rw [ih (applyUpd ps kv) k
        (fun q hq => h q (List.mem_cons_of_mem kv hq))]
      rcases kv with ⟨k2, o⟩
      exact objGet_applyUpd_ne ps k2 k o (Ne.symm h1)

theorem applyUpdates_fresh_sets (us : Updates) : ∀ ps : Params,
    (∀ kv ∈ us, ∀ p ∈ ps, ¬ p.1 = kv.1) →
    (us.map Prod.fst).Nodup →
    (∀ kv ∈ us, ∃ w, kv.2 = some w) →
    applyUpdates ps us = ps ++ us.map (fun kv => (kv.1, kv.2.getD [])) := by
  induction us with
  | nil => intro ps _ _ _; simp [applyUpdates]
  | cons kv rest ih =>
      intro ps hdisj hnodup hsome
      rw [List.map_cons] at hnodup
      have hnd := List.nodup_cons.mp hnodup
      obtain ⟨w, hw⟩ := hsome kv (List.mem_cons_self kv rest)
      rcases kv with ⟨k, o⟩
      simp only at hw
      subst hw
      show applyUpdates (applyUpd ps (k, some w)) rest = _
      have hstep : applyUpd ps (k, some w) = ps ++ [(k, w)] :=
        paramSet_fresh k w ps
          (fun p hp => hdisj (k, some w) (List.mem_cons_self _ rest) p hp)
      rw [hstep]
      rw [ih (ps ++ [(k, w)])
        (by
          intro kv2 h2 p hp
          rcases List.mem_append.mp hp with h3 | h3
          · exact hdisj kv2 (List.mem_cons_of_mem _ h2) p h3
          · simp at h3
            rw [h3]
            intro hc
            simp only at hc
            have hmem : kv2.1 ∈ List.map Prod.fst rest :=
              List.mem_map_of_mem Prod.fst h2
            rw [← hc] at hmem
            exact hnd.1 hmem)
        hnd.2
        (fun kv2 h2 => hsome kv2 (List.mem_cons_of_mem _ h2))]
      rw [List.append_assoc]
      rfl

theorem mem_applyUpdates (us : Updates) : ∀ (ps : Params) (p : JStr × JStr),
    p ∈ applyUpdates ps us →
    p ∈ ps ∨ ∃ kv ∈ us, ∃ v, kv.2 = some v ∧ p = (kv.1, v) := by
  induction us with
  | nil => intro ps p hp; exact Or.inl hp
  | cons kv rest ih =>
      intro ps p hp
      rcases ih (applyUpd ps kv) p hp with h1 | h1
      · rcases mem_applyUpd h1 with h2 | h2
        · obtain ⟨v, hv, hpv⟩ := h2
          exact Or.inr ⟨kv, List.mem_cons_self kv rest, v, hv, hpv⟩
        · exact Or.inl h2
      · obtain ⟨kv2, h2, v, hv, hpv⟩ := h1
        exact Or.inr ⟨kv2, List.mem_cons_of_mem kv h2, v, hv, hpv⟩

/-! ### Decoding the encoded params -/

theorem foldl_filtersStep_no_filter (ps : Params) :
    ∀ b : List (JStr × UrlVal),
    (∀ p ∈ ps, startsWithB p.1 (strb "filter_") = false) →
    ps.foldl filtersStep b = b := by
  induction ps with
  | nil => intro b _; rfl
  | cons p rest ih =>
      intro b h
      have hp := h p (List.mem_cons_self p rest)
      rw [List.foldl_cons]
      have hstep : filtersStep b p = b := by
        rw [filtersStep, hp]
        simp
      rw [hstep]
      exact ih b (fun q hq => h q (List.mem_cons_of_mem p hq))

theorem filterPrefix_drop (k : JStr) : (strb "filter_" ++ k).drop 7 = k :=
  List.drop_left (strb "filter_") k

theorem all_sstr_exists (elems : List UrlScalar)
    (h : elems.all (fun e => match e with | .sstr _ => true | _ => false) = true) :
    ∃ xs : List JStr, elems = xs.map UrlScalar.sstr := by
  induction elems with
  | nil => exact ⟨[], rfl⟩
  | cons e rest ih =>
      rw [List.all_cons, Bool.and_eq_true] at h
      obtain ⟨xs, hxs⟩ := ih h.2
      cases e with
      | sstr s => exact ⟨s :: xs, by rw [hxs]; rfl⟩
      | snum raw => exact absurd h.1 (by simp)
      | sbool b => exact absurd h.1 (by simp)
      | snull => exact absurd h.1 (by simp)

theorem objGet_eq_none_of_not_mem_keys {α : Type} (k : JStr)
    (l : List (JStr × α)) (h : ¬ k ∈ l.map Prod.fst) : objGet k l = none := by
  induction l with
  | nil => rfl
  | cons kv rest ih =>
      rw [objGet, if_neg (by
        intro hc
        exact h (by rw [List.map_cons, hc]; exact List.mem_cons_self k _))]
      exact ih (fun hc => h (by rw [List.map_cons]; exact List.mem_cons_of_mem _ hc))

theorem foldl_objSet_objGet (l : List (JStr × UrlVal)) :
    ∀ (b : List (JStr × UrlVal)) (k : JStr), (l.map Prod.fst).Nodup →
    objGet k (l.foldl (fun acc kv => objSet kv.1 kv.2 acc) b)
      = match objGet k l with
        | some v => some v
        | none => objGet k b := by
  induction l with
  | nil => intro b k _; rfl
  | cons kv rest ih =>
      intro b k hnodup
      rw [List.map_cons] at hnodup
      have hnd := List.nodup_cons.mp hnodup
      rw [List.foldl_cons, ih (objSet kv.1 kv.2 b) k hnd.2]
      by_cases hk : kv.1 = k
      · have hrest : objGet k rest = none :=
          objGet_eq_none_of_not_mem_keys k rest (by rw [← hk]; exact hnd.1)
        rw [hrest, objGet, if_pos hk, ← hk, objGet_objSet_self]
      · rw [objGet, if_neg hk]
        cases hr : objGet k rest with
        | some v => rfl
        | none => rw [objGet_objSet_ne kv.1 k kv.2 (Ne.symm hk) b]

theorem objGet_filter_ne (k : JStr) (hk : ¬ k = qvKey)
    (fv : List (JStr × UrlVal)) :
    objGet k (fv.filter (fun kv => ¬ kv.1 = qvKey)) = objGet k fv := by
  induction fv with
  | nil => rfl
  | cons kv rest ih =>
      by_cases hq : kv.1 = qvKey
      · have hne : ¬ kv.1 = k := by rw [hq]; exact fun hc => hk hc.symm
        rw [List.filter_cons, if_neg (by simp [hq]), objGet, if_neg hne]
        exact ih
      · rw [List.filter_cons, if_pos (by simp [hq]), objGet]
        by_cases h2 : kv.1 = k
        · rw [if_pos h2, objGet, if_pos h2]
        · rw [if_neg h2, objGet, if_neg h2]
          exact ih

theorem foldl_filtersStep_sets (fv : List (JStr × UrlVal)) :
    ∀ b : List (JStr × UrlVal),
    (∀ kv ∈ fv, ¬ kv.1 = qvKey → goodFilterVal kv.2 = true) →
    ((fv.filterMap encFilterEntry).map (fun kv => (kv.1, kv.2.getD []))).foldl
        filtersStep b
      = (fv.filter (fun kv => ¬ kv.1 = qvKey)).foldl
          (fun acc kv => objSet kv.1 kv.2 acc) b := by
  induction fv with
  | nil => intro b _; rfl
  | cons kv rest ih =>
      intro b hgood
      by_cases hq : kv.1 = qvKey
      · have he : encFilterEntry kv = none := by rw [encFilterEntry, if_pos hq]
        rw [List.filterMap_cons_none he, List.filter_cons,
          if_neg (by simp [hq])]
        exact ih b (fun q hqq => hgood q (List.mem_cons_of_mem kv hqq))
      · have hg := hgood kv (List.mem_cons_self kv rest) hq
        rcases kv with ⟨k, v⟩
        simp only at hq
        cases v with
        | ustr s =>
            rw [goodFilterVal, Bool.and_eq_true] at hg
            have hs : s.isEmpty = false := by
              cases hcs : s.isEmpty
              · rfl
              · rw [hcs] at hg; exact absurd hg.1 (by decide)
            have hnone : jsonParse (euc s) = none :=
              Option.isNone_iff_eq_none.mp hg.2
            have he : encFilterEntry (k, .ustr s)
                = some (strb "filter_" ++ k, some (euc s)) := by
              simp [encFilterEntry, hq, hs]
            rw [List.filterMap_cons_some he, List.map_cons, List.foldl_cons]
            have hstep : filtersStep b (strb "filter_" ++ k, (some (euc s)).getD [])
                = objSet k (.ustr s) b := by
              show filtersStep b (strb "filter_" ++ k, euc s) = _
              rw [filtersStep]
              simp only [startsWithB_append, if_pos, filterPrefix_drop]
              rw [decodeFilterParam]
              simp only [hnone]
              rw [duc_euc]
            rw [hstep, List.filter_cons, if_pos (by simp [hq]), List.foldl_cons]
            exact ih (objSet k (.ustr s) b)
              (fun q hqq => hgood q (List.mem_cons_of_mem _ hqq))
        | uarr elems =>
            rw [goodFilterVal, Bool.and_eq_true] at hg
            have hs : elems.isEmpty = false := by
              cases hcs : elems.isEmpty
              · rfl
              · rw [hcs] at hg; exact absurd hg.1 (by decide)
            obtain ⟨xs, hxs⟩ := all_sstr_exists elems hg.2
            have he : encFilterEntry (k, .uarr elems)
                = some (strb "filter_" ++ k, some (jsonStringifyUrlArr elems)) := by
              simp [encFilterEntry, hq, hs]
            rw [List.filterMap_cons_some he, List.map_cons, List.foldl_cons]
            have hstep : filtersStep b
                  (strb "filter_" ++ k, (some (jsonStringifyUrlArr elems)).getD [])
                = objSet k (.uarr elems) b := by
              show filtersStep b (strb "filter_" ++ k, jsonStringifyUrlArr elems) = _
              rw [filtersStep]
              simp only [startsWithB_append, if_pos, filterPrefix_drop]
              rw [decodeFilterParam, hxs, jsonParse_stringify_strings xs]
            rw [hstep, List.filter_cons, if_pos (by simp [hq]), List.foldl_cons]
            exact ih (objSet k (.uarr elems) b)
              (fun q hqq => hgood q (List.mem_cons_of_mem _ hqq))
        | unum raw => simp [goodFilterVal] at hg
        | ubool bb => simp [goodFilterVal] at hg
        | unull => simp [goodFilterVal] at hg

theorem objGet_append_right_none {α : Type} (k : JStr) (a b : List (JStr × α))
    (hb : objGet k b = none) : objGet k (a ++ b) = objGet k a := by
  rw [objGet_append]
  cases h : objGet k a with
  | some v => rfl
  | none => exact hb

theorem filterMap_enc_keys_nodup (fv : List (JStr × UrlVal))
    (h : (fv.map Prod.fst).Nodup) :
    ((fv.filterMap encFilterEntry).map Prod.fst).Nodup := by
  induction fv with
  | nil => exact List.nodup_nil
  | cons kv rest ih =>
      rw [List.map_cons] at h
      have hnd := List.nodup_cons.mp h
      cases he : encFilterEntry kv with
      | none => rw [List.filterMap_cons_none he]; exact ih hnd.2
      | some p =>
          obtain ⟨w, hp⟩ := encFilterEntry_shape kv p he
          rw [List.filterMap_cons_some he, List.map_cons, List.nodup_cons]
          refine ⟨?_, ih hnd.2⟩
          intro hc
          rcases List.mem_map.mp hc with ⟨kv2, h2, hk2⟩
          rcases List.mem_filterMap.mp h2 with ⟨a, ha, hea⟩
          obtain ⟨w2, hp2⟩ := encFilterEntry_shape a kv2 hea
          rw [hp2] at hk2
          rw [hp] at hk2
          simp only at hk2
          have := List.append_cancel_left hk2
          exact hnd.1 (by rw [← this]; exact List.mem_map_of_mem Prod.fst ha)

/-- C1: URL codec round trip, amended.  For a state with page ≥ 1, a
non-empty queryValue string, a sort entry (if any) that is non-empty and
carries no `|` byte (with the default sort absent when the state has no
sort), a viewSelected that is absent or non-empty, distinct filter keys
whose non-queryValue values are codec-representable (non-empty strings
whose encoding is not JSON-parseable, or non-empty string arrays), and a
starting URL without `filter_` params, decoding the encoded params
reproduces page, sort and viewSelected exactly and the filter mapping by
value. -/
theorem url_codec_roundtrip
    (st : EngineState UrlVal) (current : Params) (ds : Option (JStr × JStr))
    (hpage : 1 ≤ st.page)
    (hsortd : st.sort = none → ds = none)
    (hsort : ∀ s, st.sort = some s → ¬ s = [] ∧ ¬ (124 : UInt8) ∈ s)
    (hquery : ∃ q, objGet qvKey st.filterValues = some (.ustr q) ∧ ¬ q = [])
    (hview : ¬ st.viewSelected = some [])
    (hkeys : (st.filterValues.map Prod.fst).Nodup)
    (hvals : ∀ kv ∈ st.filterValues, ¬ kv.1 = qvKey → goodFilterVal kv.2 = true)
    (hcur : ∀ p ∈ current, startsWithB p.1 (strb "filter_") = false) :
    (decodeState true ds (updateSearchParamsFromState true st current)).page
        = some st.page
    ∧ (decodeState true ds (updateSearchParamsFromState true st current)).sort
        = st.sort
    ∧ filtersEquiv
        (decodeState true ds
          (updateSearchParamsFromState true st current)).filterValues
        st.filterValues
    ∧ (decodeState true ds
        (updateSearchParamsFromState true st current)).viewSelected
        = st.viewSelected := by
  obtain ⟨q, hq, hqne⟩ := hquery
  have h_sets_shape : ∀ kv ∈ st.filterValues.filterMap encFilterEntry,
      ∃ t w, kv = (strb "filter_" ++ t, some w) := by
    intro kv hkv
    rcases List.mem_filterMap.mp hkv with ⟨a, _, hea⟩
    obtain ⟨w, hp⟩ := encFilterEntry_shape a kv hea
    exact ⟨a.1, w, hp⟩
  have h_final : updateSearchParamsFromState true st current
      = applyUpdates current
          [(strb "page", pageUpdate st.page), (strb "sort", sortUpdate st.sort),
            (strb "query", queryUpdate st.filterValues),
            (strb "viewSelected", viewUpdate st.viewSelected)]
        ++ (st.filterValues.filterMap encFilterEntry).map
            (fun kv => (kv.1, kv.2.getD [])) := by
    have h_upd : updatesFromState st current
        = [(strb "page", pageUpdate st.page), (strb "sort", sortUpdate st.sort),
            (strb "query", queryUpdate st.filterValues),
            (strb "viewSelected", viewUpdate st.viewSelected)]
          ++ st.filterValues.filterMap encFilterEntry := by
      rw [updatesFromState, clearFilterUpdates_id current (baseUpdates st) hcur]
      rw [setFilterUpdates_append st.filterValues (baseUpdates st)
        (by
          intro kv hkv kv2 _
          rw [baseUpdates_eq] at hkv
          simp only [List.mem_cons, List.not_mem_nil, or_false] at hkv
          rcases hkv with h3 | h3 | h3 | h3
          · rw [h3]; exact fixedKey_ne_filterPrefix (strb "page") (by decide) _
          · rw [h3]; exact fixedKey_ne_filterPrefix (strb "sort") (by decide) _
          · rw [h3]; exact fixedKey_ne_filterPrefix (strb "query") (by decide) _
          · rw [h3]
            exact fixedKey_ne_filterPrefix (strb "viewSelected") (by decide) _)
        hkeys]
      rw [baseUpdates_eq]
    rw [updateSearchParamsFromState, if_pos rfl, h_upd, applyUpdates_append]
    apply applyUpdates_fresh_sets
    · intro kv hkv p hp
      obtain ⟨t, w, hkvt⟩ := h_sets_shape kv hkv
      rcases mem_applyUpdates _ current p hp with h1 | ⟨kv2, h2, v, _, hpv⟩
      · have h3 := hcur p h1
        rw [hkvt]
        simp only
        intro hc
        rw [hc, startsWithB_append] at h3
        exact absurd h3 (by decide)
      · rw [hpv, hkvt]
        simp only
        simp only [List.mem_cons, List.not_mem_nil, or_false] at h2
        rcases h2 with h3 | h3 | h3 | h3
        · rw [h3]; exact fixedKey_ne_filterPrefix (strb "page") (by decide) t
        · rw [h3]; exact fixedKey_ne_filterPrefix (strb "sort") (by decide) t
        · rw [h3]; exact fixedKey_ne_filterPrefix (strb "query") (by decide) t
        · rw [h3]
          exact fixedKey_ne_filterPrefix (strb "viewSelected") (by decide) t
    · exact filterMap_enc_keys_nodup st.filterValues hkeys
    · intro kv hkv
      obtain ⟨t, w, hkvt⟩ := h_sets_shape kv hkv
      exact ⟨w, by rw [hkvt]⟩
  have h_get_setsP_none : ∀ name : JStr, ¬ name.head? = some 102 →
      objGet name ((st.filterValues.filterMap encFilterEntry).map
          (fun kv => (kv.1, kv.2.getD []))) = none := by
    intro name hname
    apply objGet_eq_none_of_not_mem_keys
    intro hc
    rcases List.mem_map.mp hc with ⟨x, hx, hxn⟩
    rcases List.mem_map.mp hx with ⟨kv, hkv, hxkv⟩
    obtain ⟨t, w, hkvt⟩ := h_sets_shape kv hkv
    apply hname
    rw [← hxn, ← hxkv, hkvt, filterPrefix_head]
  have h_lookup : ∀ name : JStr, ¬ name.head? = some 102 →
      objGet name (updateSearchParamsFromState true st current)
        = objGet name
            (applyUpd (applyUpd (applyUpd (applyUpd current
              (strb "page", pageUpdate st.page))
              (strb "sort", sortUpdate st.sort))
              (strb "query", queryUpdate st.filterValues))
              (strb "viewSelected", viewUpdate st.viewSelected)) := by
    intro name hname
    rw [h_final]
    exact objGet_append_right_none name _ _ (h_get_setsP_none name hname)
  have h_pageGet : objGet (strb "page") (updateSearchParamsFromState true st current)
      = pageUpdate st.page := by
    rw [h_lookup (strb "page") (by decide)]
    rw [objGet_applyUpd_ne _ _ _ _ (by decide),
      objGet_applyUpd_ne _ _ _ _ (by decide),
      objGet_applyUpd_ne _ _ _ _ (by decide), objGet_applyUpd_self]
  have h_sortGet : objGet (strb "sort") (updateSearchParamsFromState true st current)
      = sortUpdate st.sort := by
    rw [h_lookup (strb "sort") (by decide)]
    rw [objGet_applyUpd_ne _ _ _ _ (by decide),
      objGet_applyUpd_ne _ _ _ _ (by decide), objGet_applyUpd_self]
  have h_queryGet : objGet (strb "query") (updateSearchParamsFromState true st current)
      = queryUpdate st.filterValues := by
    rw [h_lookup (strb "query") (by decide)]
    rw [objGet_applyUpd_ne _ _ _ _ (by decide), objGet_applyUpd_self]
  have h_viewGet : objGet (strb "viewSelected")
      (updateSearchParamsFromState true st current)
      = viewUpdate st.viewSelected := by
    rw [h_lookup (strb "viewSelected") (by decide)]
    rw [objGet_applyUpd_self]
  refine ⟨?_, ?_, ?_, ?_⟩
  · show getPageFromUrl true (updateSearchParamsFromState true st current)
      = some st.page
    rw [getPageFromUrl, if_neg (by decide), h_pageGet]
    by_cases hp2 : 1 < st.page
    · rw [pageUpdate, if_pos hp2]
      show (if (intToBytes st.page).isEmpty then some 1
          else parseIntJS (intToBytes st.page)) = some st.page
      have hne2 : (intToBytes st.page).isEmpty = false := by
        rw [intToBytes, if_neg (by omega)]
        cases hcc : (natBytes st.page.toNat).isEmpty
        · rfl
        · exact absurd (List.isEmpty_iff.mp hcc) (natBytes_spec st.page.toNat).2.2
      rw [hne2, if_neg (by decide)]
      exact parseIntJS_intToBytes st.page (by omega)
    · rw [pageUpdate, if_neg hp2]
      show some 1 = some st.page
      have h1 : st.page = 1 := by omega
      rw [h1]
  · show getSortFromUrl true ds (updateSearchParamsFromState true st current)
      = st.sort
    rw [getSortFromUrl, if_neg (by decide), h_sortGet]
    cases hst : st.sort with
    | none =>
        show getDefaultSortM ds = none
        rw [hsortd hst]
        rfl
    | some s =>
        obtain ⟨hsne, hsnp⟩ := hsort s hst
        show (if (replaceFirstB 32 124 s).isEmpty then getDefaultSortM ds
            else some (replaceFirstB 124 32 (replaceFirstB 32 124 s))) = some s
        have hne2 : (replaceFirstB 32 124 s).isEmpty = false := by
          cases hcc : (replaceFirstB 32 124 s).isEmpty
          · rfl
          · exact absurd (List.isEmpty_iff.mp hcc)
              (replaceFirstB_ne_nil 32 124 s hsne)
        rw [hne2, if_neg (by decide), replaceFirstB_invol 32 124 s hsnp]
  · show filtersEquiv
        (getFiltersFromUrl true (updateSearchParamsFromState true st current))
        st.filterValues
    have hqu : queryUpdate st.filterValues = some (euc q) := by
      rw [queryUpdate, hq]
      show (if q.isEmpty then none else some (euc q)) = some (euc q)
      have hqe : q.isEmpty = false := by
        cases hcc : q.isEmpty
        · rfl
        · exact absurd (List.isEmpty_iff.mp hcc) hqne
      rw [hqe, if_neg (by decide)]
    have h_qbase : queryBase (updateSearchParamsFromState true st current)
        = [(qvKey, UrlVal.ustr q)] := by
      rw [queryBase, h_queryGet, hqu]
      show (if (euc q).isEmpty then []
          else [(qvKey, UrlVal.ustr (duc (euc q)))]) = [(qvKey, UrlVal.ustr q)]
      have heqe : (euc q).isEmpty = false := by
        cases hcc : (euc q).isEmpty
        · rfl
        · exact absurd (List.isEmpty_iff.mp hcc) (euc_ne_nil q hqne)
      rw [heqe, if_neg (by decide), duc_euc]
    have h_b4p_nf : ∀ p ∈ applyUpdates current
        [(strb "page", pageUpdate st.page), (strb "sort", sortUpdate st.sort),
          (strb "query", queryUpdate st.filterValues),
          (strb "viewSelected", viewUpdate st.viewSelected)],
        startsWithB p.1 (strb "filter_") = false := by
      intro p hp
      rcases mem_applyUpdates _ current p hp with h1 | ⟨kv2, h2, v, _, hpv⟩
      · exact hcur p h1
      · simp only [List.mem_cons, List.not_mem_nil, or_false] at h2
        rcases h2 with h3 | h3 | h3 | h3
        · rw [hpv, h3]
          exact (by decide : startsWithB (strb "page") (strb "filter_") = false)
        · rw [hpv, h3]
          exact (by decide : startsWithB (strb "sort") (strb "filter_") = false)
        · rw [hpv, h3]
          exact (by decide : startsWithB (strb "query") (strb "filter_") = false)
        · rw [hpv, h3]
          exact (by decide :
            startsWithB (strb "viewSelected") (strb "filter_") = false)
    have hnodf : ((st.filterValues.filter
        (fun kv => ¬ kv.1 = qvKey)).map Prod.fst).Nodup :=
      List.Nodup.sublist
        (List.Sublist.map Prod.fst (List.filter_sublist st.filterValues)) hkeys
    have h_qbase2 : queryBase
        (applyUpdates current
            [(strb "page", pageUpdate st.page), (strb "sort", sortUpdate st.sort),
              (strb "query", queryUpdate st.filterValues),
              (strb "viewSelected", viewUpdate st.viewSelected)]
          ++ (st.filterValues.filterMap encFilterEntry).map
              (fun kv => (kv.1, kv.2.getD []))) = [(qvKey, UrlVal.ustr q)] := by
      rw [← h_final]
      exact h_qbase
    rw [getFiltersFromUrl, if_neg (by decide)]
    conv_lhs => rw [h_final]
    rw [List.foldl_append, foldl_filtersStep_no_filter _ _ h_b4p_nf]
    rw [foldl_filtersStep_sets st.filterValues _ hvals]
    rw [h_qbase2]
    intro k
    rw [foldl_objSet_objGet _ _ k hnodf]
    by_cases hk : k = qvKey
    · subst hk
      have hnone : objGet qvKey (st.filterValues.filter
          (fun kv => ¬ kv.1 = qvKey)) = none := by
        apply objGet_eq_none_of_not_mem_keys
        intro hc
        rcases List.mem_map.mp hc with ⟨kv, hkv, hk1⟩
        exact of_decide_eq_true (List.mem_filter.mp hkv).2 hk1
      rw [hnone]
      show objGet qvKey [(qvKey, UrlVal.ustr q)] = objGet qvKey st.filterValues
      rw [hq, objGet, if_pos rfl]
    · rw [objGet_filter_ne k hk]
      cases ho : objGet k st.filterValues with
      | some v => rfl
      | none =>
          show objGet k [(qvKey, UrlVal.ustr q)] = none
          rw [objGet, if_neg (fun hc => hk hc.symm)]
          rfl
  · show getViewSelectedFromUrl true (updateSearchParamsFromState true st current)
      = st.viewSelected
    rw [getViewSelectedFromUrl, if_pos rfl, h_viewGet]
    cases hv : st.viewSelected with
    | none => rfl
    | some v =>
        show (if v.isEmpty then none else some v) = some v
        have hveq : v.isEmpty = false := by
          cases hcc : v.isEmpty
          · rfl
          · exfalso
            apply hview
            rw [hv, List.isEmpty_iff.mp hcc]
        rw [hveq, if_neg (by decide)]

/-! ### C1 example data and verdict theorems -/

/-- Concrete round-trip example state. -/
def exC1st : EngineState UrlVal :=
  { page := 3, limit := 20, sort := some (strb "name asc"),
    filterValues :=
      [(qvKey, .ustr (strb "bo b")),
        (strb "status", .uarr [.sstr (strb "a,c"), .sstr (strb "b x")]),
        (strb "tag", .ustr (strb "a b"))],
    viewSelected := some (strb "My view") }

/-- Concrete starting params with an unrelated key and a stale page. -/
def exC1cur : Params :=
  [(strb "foo", strb "1"), (strb "page", strb "9")]

/-- C1 witness: the amended round trip at a concrete state carrying a
sorted field with a space, a query with a space, an array filter whose
entries hold commas and spaces, a string filter and a selected view, over
a URL that already has unrelated params. -/
theorem url_codec_roundtrip_witness :
    (decodeState true none (updateSearchParamsFromState true exC1st exC1cur)).page
        = some exC1st.page
    ∧ (decodeState true none (updateSearchParamsFromState true exC1st exC1cur)).sort
        = exC1st.sort
    ∧ filtersEquiv
        (decodeState true none
          (updateSearchParamsFromState true exC1st exC1cur)).filterValues
        exC1st.filterValues
    ∧ (decodeState true none
        (updateSearchParamsFromState true exC1st exC1cur)).viewSelected
        = exC1st.viewSelected :=
  url_codec_roundtrip exC1st exC1cur none (by decide) (by decide)
    (fun s hs => by
      injection hs with h
      subst h
      decide)
    ⟨strb "bo b", by decide, by decide⟩
    (by decide) (by decide) (by decide) (by decide)

/-- C1 counterexample to the claim as stated: the state with the empty
queryValue string — representable, since the spec has queryValue
"present as a string (may be empty)" — encodes to params without a
`query` key, and decoding yields a filter mapping with no `queryValue`
binding at all, so the round trip does not reproduce the state
field-for-field by value. -/
theorem url_codec_roundtrip_counterexample :
    objGet qvKey
        (decodeState true none
          (updateSearchParamsFromState true
            { page := 1, limit := 50, sort := none,
              filterValues := [(qvKey, UrlVal.ustr [])], viewSelected := none }
            [])).filterValues
      = none
    ∧ objGet qvKey
        ({ page := 1, limit := 50, sort := none,
            filterValues := [(qvKey, UrlVal.ustr [])],
            viewSelected := none } : EngineState UrlVal).filterValues
      = some (UrlVal.ustr []) := by
  decide

/-! ### C9: the queryValue presence invariant -/

theorem startsWithB_exists (hay pre : JStr) (h : startsWithB hay pre = true) :
    ∃ t, hay = pre ++ t := by
  induction pre generalizing hay with
  | nil => exact ⟨hay, rfl⟩
  | cons b rest ih =>
      cases hay with
      | nil => exact absurd h (by simp [startsWithB])
      | cons hb ht =>
          rw [startsWithB, Bool.and_eq_true] at h
          obtain ⟨t, hht⟩ := ih ht h.2
          have hbb : hb = b := by
            have := h.1
            simp at this
            exact this
          exact ⟨t, by rw [hbb, hht]; rfl⟩

theorem foldl_filtersStep_other (ps2 : Params) :
    ∀ (b : List (JStr × UrlVal)) (k : JStr),
    (∀ p ∈ ps2, ¬ p.1 = strb "filter_" ++ k) →
    objGet k (ps2.foldl filtersStep b) = objGet k b := by
  induction ps2 with
  | nil => intro b k _; rfl
  | cons p rest ih =>
      intro b k h
      rw [List.foldl_cons]
      have hstep : objGet k (filtersStep b p) = objGet k b := by
        rw [filtersStep]
        by_cases hsw : startsWithB p.1 (strb "filter_") = true
        · rw [if_pos hsw]
          obtain ⟨t, ht⟩ := startsWithB_exists p.1 (strb "filter_") hsw
          have hdrop : p.1.drop 7 = t := by rw [ht]; exact filterPrefix_drop t
          rw [hdrop]
          have htk : ¬ k = t := by
            intro hc
            exact h p (List.mem_cons_self p rest) (by rw [ht, hc])
          exact objGet_objSet_ne t k _ htk b
        · rw [if_neg hsw]
      rw [ih (filtersStep b p) k
        (fun q hq => h q (List.mem_cons_of_mem p hq)), hstep]

/-- C9, amended.  The invariant as stated fails for URL-seeded state: with
sync enabled, `getFiltersFromUrl` binds `queryValue` only when the URL has
a truthy `query` param (absent that, the key is absent).  What does hold:
with sync disabled the initial mapping is exactly `queryValue: ""`; with
sync enabled (and no pathological `filter_queryValue` param) the binding
mirrors the `query` param; and `setQueryValue` always (re)establishes the
binding. -/
theorem queryValue_presence (ps : Params) {α : Type} (st : EngineState α)
    (v : α) :
    objGet qvKey (getFiltersFromUrl false ps) = some (UrlVal.ustr [])
    ∧ ((∀ p ∈ ps, ¬ p.1 = strb "filter_queryValue") →
        objGet qvKey (getFiltersFromUrl true ps)
          = (match objGet (strb "query") ps with
              | some qq =>
                  if qq.isEmpty then none else some (UrlVal.ustr (duc qq))
              | none => none))
    ∧ objGet qvKey (setQueryValue st v).filterValues = some v := by
  refine ⟨?_, ?_, ?_⟩
  · rw [getFiltersFromUrl, if_pos (by decide), objGet, if_pos rfl]
  · intro hps
    rw [getFiltersFromUrl, if_neg (by decide)]
    rw [foldl_filtersStep_other ps (queryBase ps) qvKey (by
      intro p hp
      intro hc
      apply hps p hp
      rw [hc]
      decide)]
    rw [queryBase]
    cases hq : objGet (strb "query") ps with
    | none => rfl
    | some qq =>
        show objGet qvKey (if qq.isEmpty then []
            else [(qvKey, UrlVal.ustr (duc qq))])
          = (if qq.isEmpty then none else some (UrlVal.ustr (duc qq)))
        by_cases hqe : qq.isEmpty
        · rw [if_pos hqe, if_pos hqe]
          rfl
        · rw [if_neg hqe, if_neg hqe, objGet, if_pos rfl]
  · exact objGet_objSet_self qvKey v st.filterValues

/-- C9 counterexample to the claim as stated: sync enabled and a URL with
no params at all initializes `filterValues` to the empty mapping —
`queryValue` is absent, not a defined string. -/
theorem queryValue_presence_counterexample :
    getFiltersFromUrl true [] = []
    ∧ objGet qvKey (getFiltersFromUrl true []) = none := by
  decide

/-- C9 witness: the amended presence facts at a URL carrying
`query=abc`, with a concrete state for the mutator conjunct. -/
theorem queryValue_presence_witness :
    objGet qvKey (getFiltersFromUrl false [(strb "query", strb "abc")])
        = some (UrlVal.ustr [])
    ∧ objGet qvKey (getFiltersFromUrl true [(strb "query", strb "abc")])
        = some (UrlVal.ustr (strb "abc"))
    ∧ objGet qvKey
        (setQueryValue
          ({ page := 1, limit := 10, sort := none, filterValues := [],
              viewSelected := none } : EngineState JStr)
          (strb "x")).filterValues
      = some (strb "x") := by
  have h := queryValue_presence [(strb "query", strb "abc")]
    ({ page := 1, limit := 10, sort := none, filterValues := [],
        viewSelected := none } : EngineState JStr)
    (strb "x")
  refine ⟨h.1, ?_, h.2.2⟩
  have h2 := h.2.1 (by decide)
  rw [h2]
  decide
